import Mathlib

/-!
# Verification of the rustodo task-relationship and lifecycle engine

A shallow embedding of the core of the `rustodo` task tracker:
the task data model (`src/models/task.rs`), recurrence arithmetic
(`src/models/recurrence.rs`), dependency-graph queries and cycle detection
(`Task::is_blocked`, `Task::blocking_deps`, `detect_cycle`), tag
normalization (`src/tag_normalizer.rs`), input validation
(`src/validation.rs`), and the command handlers `add`, `edit`, `done`,
`undone`, `remove` and `recur` (`src/commands/*.rs`).

Modelling conventions:
* Rust `Uuid` values are modelled as `Nat`; `Uuid::new_v4()` (a fresh random
  identifier) becomes an explicit function argument.
* `chrono::NaiveDate` is modelled as a year/month/day record; `Local::now()`
  (the operation date) becomes an explicit `today` argument.
* Fallible handlers return `Except TodoError`; the storage collaborator is
  out of scope, so a handler's "save" is simply returning the final list.
* Rust slice indexing after `validate_task_id` is modelled with `getD` and a
  default element that is provably never used under the validation guard.
-/

namespace Rustodo

/-- Priority level, from `src/models/priority.rs`. -/
inductive Priority where
  | high
  | medium
  | low
deriving DecidableEq, Repr

/-- Recurrence pattern, from `src/models/recurrence.rs`. -/
inductive Recurrence where
  | daily
  | weekly
  | monthly
deriving DecidableEq, Repr

/-- Calendar date, modelling `chrono::NaiveDate` as year/month/day. -/
structure Date where
  year : Nat
  month : Nat
  day : Nat
deriving DecidableEq, Repr

/-- Calendar order on dates (chrono's `NaiveDate` order is calendar order,
which is lexicographic on (year, month, day) for valid dates). -/
def Date.lt (a b : Date) : Prop :=
  a.year < b.year ∨ (a.year = b.year ∧
    (a.month < b.month ∨ (a.month = b.month ∧ a.day < b.day)))

instance (a b : Date) : Decidable (Date.lt a b) := by
  unfold Date.lt; infer_instance

/-- Whether `year` is a leap year (Gregorian rule, as in chrono). -/
def isLeapYear (y : Nat) : Bool :=
  y % 4 == 0 && (y % 100 != 0 || y % 400 == 0)

/-- Number of days in a month (Gregorian calendar, as in chrono). -/
def daysInMonth (y m : Nat) : Nat :=
  if m = 2 then (if isLeapYear y then 29 else 28)
  else if m = 4 ∨ m = 6 ∨ m = 9 ∨ m = 11 then 30
  else 31

/-- The day after `d` (chrono day-successor with month/year rollover). -/
def Date.nextDay (d : Date) : Date :=
  if d.day < daysInMonth d.year d.month then ⟨d.year, d.month, d.day + 1⟩
  else if d.month < 12 then ⟨d.year, d.month + 1, 1⟩
  else ⟨d.year + 1, 1, 1⟩

/-- `d + n` days, modelling `NaiveDate + chrono::Duration::days(n)`. -/
def Date.addDays (d : Date) (n : Nat) : Date :=
  match n with
  | 0 => d
  | n + 1 => (d.nextDay).addDays n

/-- `d + 1` calendar month, modelling `NaiveDate::checked_add_months(Months::new(1))`:
the month is incremented (rolling into the next year after December) and the
day-of-month is clamped to the last day of the target month.  chrono returns
`None` only when the resulting year leaves its representable range, which
the `Nat` model does not have, so the `unwrap_or(from_date)` fallback of the
source never fires here. -/
def Date.addOneMonth (d : Date) : Date :=
  let y' := if d.month = 12 then d.year + 1 else d.year
  let m' := if d.month = 12 then 1 else d.month + 1
  ⟨y', m', min d.day (daysInMonth y' m')⟩

/-- `Recurrence::next_date` from `src/models/recurrence.rs`. -/
def Recurrence.nextDate (r : Recurrence) (fromDate : Date) : Date :=
  match r with
  | .daily => fromDate.addDays 1
  | .weekly => fromDate.addDays 7
  | .monthly => fromDate.addOneMonth

/-- A date is valid when the month is 1..12 and the day fits the month. -/
def Date.Valid (d : Date) : Prop :=
  1 ≤ d.month ∧ d.month ≤ 12 ∧ 1 ≤ d.day ∧ d.day ≤ daysInMonth d.year d.month

instance (d : Date) : Decidable d.Valid := by
  unfold Date.Valid; infer_instance

/-- The task record, from `src/models/task.rs` (`struct Task`). -/
structure Task where
  uuid : Nat
  text : String
  completed : Bool
  priority : Priority
  tags : List String
  project : Option String
  due_date : Option Date
  created_at : Date
  recurrence : Option Recurrence
  parent_id : Option Nat
  depends_on : List Nat
  completed_at : Option Date
deriving DecidableEq, Repr

/-- Default element used only to model Rust's panicking index operator
`tasks[index]`; every use is guarded by `validate_task_id`, under which the
default is never produced. -/
def defaultTask : Task :=
  { uuid := 0, text := "", completed := false, priority := .medium,
    tags := [], project := none, due_date := none,
    created_at := ⟨1970, 1, 1⟩, recurrence := none, parent_id := none,
    depends_on := [], completed_at := none }

instance : Inhabited Task := ⟨defaultTask⟩

/-- `Task::new` from `src/models/task.rs`.  `Uuid::new_v4()` and
`Local::now().naive_local().date()` are modelled as the explicit arguments
`uuid` and `today`. -/
def Task.new (uuid : Nat) (text : String) (priority : Priority)
    (tags : List String) (project : Option String) (due_date : Option Date)
    (recurrence : Option Recurrence) (today : Date) : Task :=
  { uuid := uuid, text := text, completed := false, priority := priority,
    tags := tags, project := project, due_date := due_date,
    created_at := today, recurrence := recurrence, parent_id := none,
    depends_on := [], completed_at := none }

/-- `Task::mark_done`: sets `completed = true` and `completed_at = today`. -/
def Task.markDone (t : Task) (today : Date) : Task :=
  { t with completed := true, completed_at := some today }

/-- `Task::mark_undone`: sets `completed = false` and clears `completed_at`. -/
def Task.markUndone (t : Task) : Task :=
  { t with completed := false, completed_at := none }

/-- `tasks.iter().find(|t| t.uuid == u)`: the first task with the given
identifier. -/
def findTask : List Task → Nat → Option Task
  | [], _ => none
  | t :: ts, u => if t.uuid = u then some t else findTask ts u

/-- Whether the identifier `u` resolves (via `findTask`) to a still-pending
task: the body of the closures in `Task::is_blocked` and
`Task::blocking_deps` (`.map(|t| !t.completed).unwrap_or(false)`). -/
def blockedBy (tasks : List Task) (u : Nat) : Bool :=
  match findTask tasks u with
  | some t => !t.completed
  | none => false

/-- `Task::is_blocked` from `src/models/task.rs`. -/
def Task.isBlocked (t : Task) (allTasks : List Task) : Bool :=
  t.depends_on.any (fun depUuid => blockedBy allTasks depUuid)

/-- `Task::blocking_deps` from `src/models/task.rs`. -/
def Task.blockingDeps (t : Task) (allTasks : List Task) : List Nat :=
  t.depends_on.filter (fun depUuid => blockedBy allTasks depUuid)

/-- The dependency targets of node `u`: the `depends_on` list of the first
task whose uuid is `u`, or `[]` when no task has that uuid (the DFS in
`detect_cycle` pushes successors only when `tasks.iter().find(...)`
succeeds). -/
def succs (tasks : List Task) (u : Nat) : List Nat :=
  match findTask tasks u with
  | some t => t.depends_on
  | none => []

/-- Weight of the not-yet-visited part of the graph; used as the termination
measure for the iterative DFS of `detect_cycle`. -/
def remWeight (tasks : List Task) (visited : List Nat) : Nat :=
  ((tasks.filter (fun t => ¬ t.uuid ∈ visited)).map
    (fun t => 1 + t.depends_on.length)).sum

/-- The iterative depth-first search of `detect_cycle`
(`src/models/task.rs`): pop the top of the stack; report a cycle when it is
the target; otherwise, if it was not yet visited, mark it visited and push
its dependency targets.  The source pushes `t.depends_on` in order onto the
end of a `Vec` used as a stack, so the last dependency is popped first; here
the stack top is the list head, hence the `reverse`. -/
def cycleDfs (tasks : List Task) (target : Nat) (visited : List Nat) :
    List Nat → Bool
  | [] => false
  | c :: rest =>
      if c = target then true
      else if h : c ∈ visited then cycleDfs tasks target visited rest
      else cycleDfs tasks target (c :: visited)
        ((succs tasks c).reverse ++ rest)
termination_by stack => stack.length + remWeight tasks visited
decreasing_by
  · simp only [List.length_cons]
    omega
  · have hcons : ∀ (t : Task) (ts : List Task) (vis : List Nat),
        remWeight (t :: ts) vis =
          (if t.uuid ∈ vis then 0 else 1 + t.depends_on.length) +
            remWeight ts vis := by
      intro t ts vis
      by_cases hx : t.uuid ∈ vis <;> simp [remWeight, List.filter_cons, hx]
    have hmono : ∀ ts : List Task,
        remWeight ts (c :: visited) ≤ remWeight ts visited := by
      intro ts
      induction ts with
      | nil => simp [remWeight]
      | cons t ts ih =>
          rw [hcons, hcons]
          by_cases hx : t.uuid ∈ visited
          · have hx' : t.uuid ∈ c :: visited := List.mem_cons_of_mem _ hx
            simp only [hx, hx', if_true]
            omega
          · by_cases hc2 : t.uuid ∈ c :: visited
            · simp only [hx, hc2, if_true, if_false]
              omega
            · simp only [hx, hc2, if_false]
              omega
    have key : ∀ ts : List Task,
        (succs ts c).length + remWeight ts (c :: visited) <
          1 + remWeight ts visited := by
      intro ts
      induction ts with
      | nil => simp [succs, findTask, remWeight]
      | cons t ts ih =>
          rw [hcons, hcons]
          by_cases ht : t.uuid = c
          · have h1 : succs (t :: ts) c = t.depends_on := by
              simp [succs, findTask, ht]
            have h2 : t.uuid ∈ c :: visited := by
              rw [ht]; exact List.mem_cons_self _ _
            have h3 : t.uuid ∉ visited := by rw [ht]; exact h
            have := hmono ts
            simp only [h1, h2, h3, if_true, if_false]
            omega
          · have h1 : succs (t :: ts) c = succs ts c := by
              simp [succs, findTask, ht]
            have h2 : t.uuid ∈ c :: visited ↔ t.uuid ∈ visited := by
              simp [List.mem_cons, ht]
            rw [h1]
            by_cases hv : t.uuid ∈ visited
            · simp only [hv, h2.mpr hv, if_true]
              omega
            · simp only [hv, h2, if_false]
              omega
    have := key tasks
    simp only [List.length_append, List.length_reverse, List.length_cons]
    omega

/-- Reachability along a successor function, in zero or more steps. -/
inductive ReachesF (f : Nat → List Nat) : Nat → Nat → Prop
  | refl (u : Nat) : ReachesF f u u
  | step (u v w : Nat) : v ∈ f u → ReachesF f v w → ReachesF f u w

/-- `Reaches tasks u v`: `v` is reachable from `u` by following existing
`depends_on` edges forward. -/
def Reaches (tasks : List Task) : Nat → Nat → Prop :=
  ReachesF (succs tasks)

/-- A successor function is acyclic when no edge starts a path back to its
source. -/
def AcyclicF (f : Nat → List Nat) : Prop :=
  ∀ u v, v ∈ f u → ¬ ReachesF f v u

/-- The `depends_on` edges of a task list form an acyclic graph. -/
def Acyclic (tasks : List Task) : Prop :=
  AcyclicF (succs tasks)

/-- The successor function of `tasks` with one extra edge from `a` to `b`
(the graph that would result from accepting the dependency `a` depends on
`b`). -/
def succsPlus (tasks : List Task) (a b : Nat) : Nat → List Nat :=
  fun u => if u = a then b :: succs tasks u else succs tasks u

/-- 1-based display position of the task with identifier `u`, or `0` when no
task has that identifier (`tasks.iter().position(...).map(|i| i + 1)
.unwrap_or(0)` in `detect_cycle`'s error branch). -/
def positionOf (tasks : List Task) (u : Nat) : Nat :=
  match tasks.findIdx? (fun t => t.uuid == u) with
  | some i => i + 1
  | none => 0

/-- The cycle error message of `detect_cycle`.  The source builds it at
detection time, but only from the loop-invariant values `tasks`,
`task_uuid` and `new_dep_uuid`, so building it after the search is
extensionally identical. -/
def cycleMsg (tasks : List Task) (taskUuid newDepUuid : Nat) : String :=
  "Adding this dependency would create a cycle: task #" ++
    toString (positionOf tasks taskUuid) ++ " → task #" ++
    toString (positionOf tasks newDepUuid) ++ " → ... → task #" ++
    toString (positionOf tasks taskUuid)

/-- `detect_cycle` from `src/models/task.rs`: iterative DFS from
`newDepUuid`; reports an error when `taskUuid` is reached. -/
def detectCycle (tasks : List Task) (taskUuid newDepUuid : Nat) :
    Except String Unit :=
  if cycleDfs tasks taskUuid [] [newDepUuid] then
    .error (cycleMsg tasks taskUuid newDepUuid)
  else .ok ()

/-- The error taxonomy of `src/error.rs` (`enum TodoError`), restricted to
the variants the embedded handlers can produce, plus `generic` for the
ad-hoc `anyhow::anyhow!` errors of `src/commands/edit.rs` and
`src/commands/recur.rs`. -/
inductive TodoError where
  | invalidTaskId (id max : Nat)
  | taskAlreadyInStatus (id : Nat) (status : String)
  | emptyTaskText
  | taskTextTooLong (max actual : Nat)
  | emptyTag
  | tagTooLong (max actual : Nat)
  | invalidTagFormat (tag : String)
  | duplicateTag (tag : String)
  | emptyProjectName
  | projectNameTooLong (max actual : Nat)
  | dueDateInPast (date : Date)
  | recurrenceRequiresDueDate
  | selfDependency (taskId : Nat)
  | taskBlocked (id : Nat) (ids : String)
  | dependencyCycle (msg : String)
  | dependencyNotFound (taskId depId : Nat)
  | duplicateDependency (taskId depId : Nat)
  | generic (msg : String)
deriving DecidableEq, Repr

/-- Rust's `str::trim`, modelled on the character list (Lean's own
`String.trim` is byte-position based and opaque to kernel reduction):
leading and trailing whitespace removed. -/
def trimStr (s : String) : String :=
  ⟨((s.data.dropWhile (fun c => c.isWhitespace)).reverse.dropWhile
      (fun c => c.isWhitespace)).reverse⟩

/-- `validate_task_id` from `src/validation.rs`: 1-based ids, error when
`id == 0 || id > max`. -/
def validateTaskId (id max : Nat) : Except TodoError Unit :=
  if id = 0 ∨ id > max then .error (.invalidTaskId id max)
  else .ok ()

/-- `validate_task_text` from `src/validation.rs`.  Rust's byte length is
modelled as character count (they agree on ASCII). -/
def validateTaskText (text : String) : Except TodoError Unit :=
  let trimmed := trimStr text
  if trimmed.isEmpty then .error .emptyTaskText
  else if trimmed.length > 500 then
    .error (.taskTextTooLong 500 trimmed.length)
  else .ok ()

/-- The per-tag loop of `validate_tags` (`src/validation.rs`): empty check,
length check, charset check (alphanumeric, hyphen, underscore). -/
def validateTagsFormat : List String → Except TodoError Unit
  | [] => .ok ()
  | tag :: rest =>
      let trimmed := trimStr tag
      if trimmed.isEmpty then .error .emptyTag
      else if trimmed.length > 50 then .error (.tagTooLong 50 trimmed.length)
      else if ¬ trimmed.toList.all
          (fun c => c.isAlphanum || c == '-' || c == '_') then
        .error (.invalidTagFormat trimmed)
      else validateTagsFormat rest

/-- Lower-casing, modelling Rust's `str::to_lowercase` (ASCII model):
every character mapped to its lower-case form. -/
def toLowerStr (s : String) : String :=
  ⟨s.data.map Char.toLower⟩

/-- The case-insensitive duplicate loop of `validate_tags`
(`src/validation.rs`), with the `HashSet` of already-seen lowercased tags
made explicit. -/
def checkDupTags (seen : List String) : List String → Except TodoError Unit
  | [] => .ok ()
  | tag :: rest =>
      let lower := toLowerStr tag
      if lower ∈ seen then .error (.duplicateTag tag)
      else checkDupTags (lower :: seen) rest

/-- `validate_tags` from `src/validation.rs`. -/
def validateTags (tags : List String) : Except TodoError Unit := do
  validateTagsFormat tags
  checkDupTags [] tags

/-- Modelled from the spec: `validate_project_name` is referenced by
`src/commands/add.rs` and `src/commands/edit.rs` but its definition is
missing from the source tree.  The spec (§3, §7) requires a project label
to be non-empty if present and at most 100 characters. -/
def validateProjectName (p : String) : Except TodoError Unit :=
  let trimmed := trimStr p
  if trimmed.isEmpty then .error .emptyProjectName
  else if trimmed.length > 100 then
    .error (.projectNameTooLong 100 trimmed.length)
  else .ok ()

/-- `validate_due_date` from `src/validation.rs`: a due date in the past is
rejected unless `allowPast`. -/
def validateDueDate (dueDate : Option Date) (allowPast : Bool)
    (today : Date) : Except TodoError Unit :=
  match dueDate with
  | some due =>
      if ¬ allowPast ∧ Date.lt due today then .error (.dueDateInPast due)
      else .ok ()
  | none => .ok ()

/-- `validate_recurrence` from `src/validation.rs`: recurrence requires a
due date. -/
def validateRecurrence (recurrence : Option Recurrence)
    (dueDate : Option Date) : Except TodoError Unit :=
  if recurrence.isSome ∧ dueDate.isNone then
    .error .recurrenceRequiresDueDate
  else .ok ()

/-- `Task::create_next_recurrence` from `src/models/task.rs`.  The fresh
`Uuid::new_v4()` generated inside `Task::new` and `Local::now()` (used for
`created_at`) are the explicit arguments `freshUuid` and `today`. -/
def Task.createNextRecurrence (t : Task) (parentUuid : Nat)
    (freshUuid : Nat) (today : Date) : Option Task :=
  match t.recurrence with
  | none => none
  | some recurrence =>
      match t.due_date with
      | none => none
      | some currentDue =>
          let nextDue := recurrence.nextDate currentDue
          let nextTask := Task.new freshUuid t.text t.priority t.tags
            t.project (some nextDue) (some recurrence) today
          some { nextTask with parent_id := some parentUuid }

/-- The Levenshtein (unit-cost insert/delete/substitute) edit distance
between strings: the mathematical function computed by
`strsim::levenshtein`, used by `src/tag_normalizer.rs`.  Mathlib's
`levenshtein` with the default unit-cost structure is exactly this
distance. -/
def levStr (a b : String) : Nat :=
  levenshtein Levenshtein.defaultCost a.data b.data

/-- `enum NormalizeResult` from `src/tag_normalizer.rs`. -/
inductive NormalizeResult where
  | unchanged
  | normalized (fromTag toTag : String)
  | new
deriving DecidableEq, Repr

/-- `min_by_key` over the `(tag, distance)` candidate list: the first
element with minimal distance (Rust's `Iterator::min_by_key` returns the
first of several equal minima). -/
def minByDist (l : List (String × Nat)) : Option (String × Nat) :=
  l.foldl
    (fun best p =>
      match best with
      | none => some p
      | some q => if p.2 < q.2 then some p else some q)
    none

/-- `normalize_tag` from `src/tag_normalizer.rs`: exact match, then
case-insensitive match, then fuzzy (Levenshtein) match within a
length-dependent threshold, else a new tag.  Rust's `tag.len()` (bytes) is
modelled as character count (they agree on ASCII). -/
def normalizeTag (tag : String) (existingTags : List String) :
    NormalizeResult :=
  if existingTags.any (fun t => t == tag) then .unchanged
  else
    let tagLower := toLowerStr tag
    match existingTags.find? (fun t => toLowerStr t == tagLower) with
    | some existing => .normalized tag existing
    | none =>
        let threshold := if tag.length ≤ 4 then 1 else 2
        let best := minByDist
          (((existingTags.map (fun t => (t, levStr tagLower (toLowerStr t))))).filter
            (fun p => p.2 ≤ threshold))
        match best with
        | some (existing, _) => .normalized tag existing
        | none => .new

/-- `normalize_tags` from `src/tag_normalizer.rs`: normalize each tag in
order, collecting the canonical values and the from/to messages. -/
def normalizeTags (tags : List String) (existingTags : List String) :
    List String × List String :=
  tags.foldl
    (fun acc tag =>
      match normalizeTag tag existingTags with
      | .unchanged => (acc.1 ++ [tag], acc.2)
      | .new => (acc.1 ++ [tag], acc.2)
      | .normalized f t =>
          (acc.1 ++ [t], acc.2 ++ ["'" ++ f ++ "' → '" ++ t ++ "'"]))
    ([], [])

/-- The inner fold of `collect_existing_tags`: append a tag when not yet
seen (`HashSet::insert` returning true). -/
def insertIfNew (acc : List String) (tag : String) : List String :=
  if tag ∈ acc then acc else acc ++ [tag]

/-- `collect_existing_tags` from `src/tag_normalizer.rs`: the unique tags of
the task list in first-occurrence order. -/
def collectExistingTags (tasks : List Task) : List String :=
  tasks.foldl (fun acc t => t.tags.foldl insertIfNew acc) []

/-- `NaiveDate`'s `Display` (`YYYY-MM-DD`, without zero padding of the
year/month/day digits, which no claim depends on). -/
def Date.toStr (d : Date) : String :=
  toString d.year ++ "-" ++ toString d.month ++ "-" ++ toString d.day

/-- `Priority::letter` (uncolored; terminal coloring is a display concern
outside the core). -/
def Priority.letter : Priority → String
  | .high => "H"
  | .medium => "M"
  | .low => "L"

/-- Default date used only to model `Option::unwrap` on a value that is
provably `Some` at the call site (`next_task.due_date.unwrap()` in
`src/commands/done.rs`). -/
def defaultDate : Date := ⟨1970, 1, 1⟩

/-- The blocking-dependency message of `src/commands/done.rs`: each blocking
uuid is mapped to its 1-based display position and quoted task text, and the
entries are joined with `", "`. -/
def blockedIdsMsg (tasks : List Task) (blocking : List Nat) : String :=
  String.intercalate ", "
    ((blocking.filterMap
        (fun u => (tasks.findIdx? (fun t => t.uuid == u)).map (· + 1))).map
      (fun numId =>
        let text := match tasks[numId - 1]? with
          | some t => "\"" ++ t.text ++ "\""
          | none => ""
        "#" ++ toString numId ++ " " ++ text))

/-- `execute` from `src/commands/done.rs`: validate the id, reject an
already-completed task, reject a blocked task naming the blockers, mark the
task done, and append the next recurrence occurrence unless a matching
pending task already exists (the deduplication rule). -/
def doneExecute (tasks : List Task) (id : Nat) (today : Date)
    (freshUuid : Nat) : Except TodoError (List Task) :=
  match validateTaskId id tasks.length with
  | .error e => .error e
  | .ok _ =>
      let index := id - 1
      if (tasks.getD index defaultTask).completed then
        .error (.taskAlreadyInStatus id "completed")
      else
        let blocking := (tasks.getD index defaultTask).blockingDeps tasks
        if ¬ blocking.isEmpty then
          .error (.taskBlocked id (blockedIdsMsg tasks blocking))
        else
          let t' := (tasks.getD index defaultTask).markDone today
          let tasks1 := tasks.set index t'
          let taskUuid := t'.uuid
          match t'.createNextRecurrence taskUuid freshUuid today with
          | some nextTask =>
              let nextDue := nextTask.due_date.getD defaultDate
              let alreadyExists := tasks1.any (fun t =>
                !t.completed && t.due_date == some nextDue &&
                  (t.parent_id == some taskUuid || t.text == nextTask.text))
              if alreadyExists then .ok tasks1
              else .ok (tasks1 ++ [nextTask])
          | none => .ok tasks1

/-- `execute` from `src/commands/undone.rs`: validate the id, reject an
already-pending task, revert to pending clearing `completed_at`. -/
def undoneExecute (tasks : List Task) (id : Nat) :
    Except TodoError (List Task) :=
  match validateTaskId id tasks.length with
  | .error e => .error e
  | .ok _ =>
      let index := id - 1
      if !(tasks.getD index defaultTask).completed then
        .error (.taskAlreadyInStatus id "pending")
      else
        .ok (tasks.set index ((tasks.getD index defaultTask).markUndone))

/-- `execute` from `src/commands/remove.rs` on the confirmed path
(`yes = true`, or the user answering yes at the interactive prompt, which is
I/O outside the core): validate the id and remove exactly that task
(`Vec::remove`, which shifts the tail left). -/
def removeExecute (tasks : List Task) (id : Nat) :
    Except TodoError (List Task) :=
  match validateTaskId id tasks.length with
  | .error e => .error e
  | .ok _ => .ok (tasks.eraseIdx (id - 1))

/-- Modelled from the spec: `Task::touch` is called by
`src/commands/recur.rs` and `src/commands/clear_recur.rs` but is missing
from the source tree, and the spec's data model (§3) has no sync-metadata
field it could update, so on the modelled fields it is the identity. -/
def Task.touch (t : Task) : Task := t

/-- `execute` from `src/commands/recur.rs`: validate the id, require a due
date, set the recurrence pattern. -/
def recurExecute (tasks : List Task) (id : Nat) (pattern : Recurrence) :
    Except TodoError (List Task) :=
  match validateTaskId id tasks.length with
  | .error e => .error e
  | .ok _ =>
      let index := id - 1
      let task := tasks.getD index defaultTask
      if task.due_date.isNone then
        .error (.generic ("Task #" ++ toString id ++
          " has no due date. Add one with: todo edit " ++ toString id ++
          " --due YYYY-MM-DD"))
      else
        let oldRecurrence := task.recurrence
        let task1 := { task with recurrence := some pattern }
        let task2 := if oldRecurrence ≠ some pattern then task1.touch
          else task1
        .ok (tasks.set index task2)

/-- Modelled from the spec: `validation::resolve_uuid` is called by
`src/commands/add.rs` but is missing from the source tree.  Per the spec
(§9), dependency edges store the stable identifier of the task the CLI
addressed by its 1-based position, so it returns the uuid of the task at
that position. -/
def resolveUuid (depId : Nat) (tasks : List Task) : Except TodoError Nat :=
  match tasks[depId - 1]? with
  | some t => .ok t.uuid
  | none => .error (.invalidTaskId depId tasks.length)

/-- The dependency-validation loop of `src/commands/add.rs`: reject a
self-dependency on the new task's id, and reject ids outside the current
range. -/
def addValidateDeps (newId len : Nat) : List Nat → Except TodoError Unit
  | [] => .ok ()
  | depId :: rest =>
      if depId = newId then .error (.selfDependency newId)
      else
        match validateTaskId depId len with
        | .error e => .error e
        | .ok _ => addValidateDeps newId len rest

/-- The `if let Some(ref p) = args.project` validation step of
`src/commands/add.rs`. -/
def validateProjectOpt (project : Option String) : Except TodoError Unit :=
  match project with
  | some p => validateProjectName p
  | none => .ok ()

/-- A task list satisfies the data-model invariant when every task with a
recurrence pattern has a due date (spec §3). -/
def RecDueInv (tasks : List Task) : Prop :=
  ∀ t ∈ tasks, t.recurrence.isSome = true → t.due_date.isSome = true

instance (tasks : List Task) : Decidable (RecDueInv tasks) := by
  unfold RecDueInv
  infer_instance

/-- `execute` from `src/commands/add.rs`.  The natural-language date parser
is an external collaborator; `due` arrives as a resolved date, and
`parse_date_not_in_past`'s past-date rejection coincides with the
`validate_due_date(due, false)` check that follows it. -/
def addExecute (tasks : List Task) (text : String) (priority : Priority)
    (tags : List String) (project : Option String) (due : Option Date)
    (recurrence : Option Recurrence) (dependsOn : List Nat) (today : Date)
    (freshUuid : Nat) : Except TodoError (List Task) := do
  validateTaskText text
  validateTags tags
  validateProjectOpt project
  validateDueDate due false today
  validateRecurrence recurrence due
  let newId := tasks.length + 1
  addValidateDeps newId tasks.length dependsOn
  let depUuids ← dependsOn.mapM (fun depId => resolveUuid depId tasks)
  let existingTags := collectExistingTags tasks
  let normalizedTags := (normalizeTags tags existingTags).1
  let task := Task.new freshUuid text priority normalizedTags project due
    recurrence today
  let task := { task with depends_on := depUuids }
  return tasks ++ [task]

/-- The `add_dep` validation loop of `src/commands/edit.rs`: per candidate,
reject a self-dependency, an out-of-range id, a dependency cycle
(`detect_cycle`), and a duplicate of an existing edge, in that order. -/
def editValidateAddDeps (tasks : List Task) (id : Nat) :
    List Nat → Except TodoError Unit
  | [] => .ok ()
  | depId :: rest =>
      if depId = id then .error (.selfDependency id)
      else
        match validateTaskId depId tasks.length with
        | .error e => .error e
        | .ok _ =>
            match detectCycle tasks id depId with
            | .error msg => .error (.dependencyCycle msg)
            | .ok _ =>
                if depId ∈ (tasks.getD (id - 1) defaultTask).depends_on then
                  .error (.duplicateDependency id depId)
                else editValidateAddDeps tasks id rest

/-- The `remove_dep` validation loop of `src/commands/edit.rs`: removing an
edge that does not currently exist is an error. -/
def editValidateRemoveDeps (tasks : List Task) (id : Nat) :
    List Nat → Except TodoError Unit
  | [] => .ok ()
  | depId :: rest =>
      if depId ∉ (tasks.getD (id - 1) defaultTask).depends_on then
        .error (.dependencyNotFound id depId)
      else editValidateRemoveDeps tasks id rest

/-- The tag-adding loop of `src/commands/edit.rs`: push each new tag not
already present (checking against the growing list), collecting the added
ones. -/
def editAddTagsLoop (tags added : List String) :
    List String → List String × List String
  | [] => (tags, added)
  | newTag :: rest =>
      if newTag ∈ tags then editAddTagsLoop tags added rest
      else editAddTagsLoop (tags ++ [newTag]) (added ++ [newTag]) rest

/-- The `=== Text ===` section of `src/commands/edit.rs`, acting on the
(task, change-messages) state: an empty new text is an error; a different
text is applied and recorded. -/
def editText (text : Option String) (st : Task × List String) :
    Except TodoError (Task × List String) :=
  match text with
  | none => .ok st
  | some newText =>
      if (trimStr newText).isEmpty then
        .error (.generic "Task text cannot be empty")
      else if st.1.text ≠ newText then
        .ok ({ st.1 with text := newText },
          st.2 ++ ["text → " ++ newText])
      else .ok st

/-- The `=== Priority ===` section of `src/commands/edit.rs`. -/
def editPriority (priority : Option Priority) (st : Task × List String) :
    Task × List String :=
  match priority with
  | none => st
  | some newPriority =>
      if st.1.priority ≠ newPriority then
        ({ st.1 with priority := newPriority },
          st.2 ++ ["priority → " ++ newPriority.letter])
      else st

/-- The `=== Project ===` section of `src/commands/edit.rs`. -/
def editProject (project : Option String) (clearProject : Bool)
    (st : Task × List String) : Except TodoError (Task × List String) :=
  if clearProject then
    match st.1.project with
    | some old =>
        .ok ({ st.1 with project := none },
          st.2 ++ ["project cleared -> was " ++ old])
    | none => .ok st
  else
    match project with
    | none => .ok st
    | some newProject =>
        match validateProjectName newProject with
        | .error e => .error e
        | .ok _ =>
            if st.1.project ≠ some newProject then
              .ok ({ st.1 with project := some newProject },
                st.2 ++ ["project -> " ++ newProject])
            else .ok st

/-- The tag-removal part of the `=== Tags ===` section of
`src/commands/edit.rs`: removing tags none of which exist (while the task
has tags) is an error. -/
def editRemoveTags (id : Nat) (removeTag : List String)
    (st : Task × List String) : Except TodoError (Task × List String) :=
  if ¬ removeTag.isEmpty then
    let beforeLen := st.1.tags.length
    let removed := st.1.tags.filter (fun t => t ∈ removeTag)
    let newTags := st.1.tags.filter (fun t => t ∉ removeTag)
    if ¬ removed.isEmpty then
      .ok ({ st.1 with tags := newTags },
        st.2 ++ ["removed tags → [" ++ String.intercalate ", " removed ++ "]"])
    else if beforeLen > 0 then
      .error (.generic ("None of the specified tags [" ++
        String.intercalate ", " removeTag ++ "] exist in task #" ++
        toString id))
    else .ok ({ st.1 with tags := newTags }, st.2)
  else .ok st

/-- The tag-adding part of the `=== Tags ===` section of
`src/commands/edit.rs`. -/
def editAddTags (addTag : List String) (st : Task × List String) :
    Except TodoError (Task × List String) :=
  if ¬ addTag.isEmpty then
    match validateTags addTag with
    | .error e => .error e
    | .ok _ =>
        match editAddTagsLoop st.1.tags [] addTag with
        | (newTags, added) =>
            if ¬ added.isEmpty then
              .ok ({ st.1 with tags := newTags },
                st.2 ++ ["added tags → [" ++
                  String.intercalate ", " added ++ "]"])
            else .ok ({ st.1 with tags := newTags }, st.2)
  else .ok st

/-- The `=== Tags ===` section of `src/commands/edit.rs`: clear, or remove
then add. -/
def editTags (id : Nat) (addTag removeTag : List String) (clearTags : Bool)
    (st : Task × List String) : Except TodoError (Task × List String) :=
  if clearTags then
    if ¬ st.1.tags.isEmpty then
      .ok ({ st.1 with tags := [] },
        st.2 ++ ["tags cleared → was [" ++
          String.intercalate ", " st.1.tags ++ "]"])
    else .ok st
  else
    match editRemoveTags id removeTag st with
    | .error e => .error e
    | .ok st1 => editAddTags addTag st1

/-- The `=== Due date ===` section of `src/commands/edit.rs`. -/
def editDue (due : Option Date) (clearDue : Bool)
    (st : Task × List String) : Task × List String :=
  if clearDue then
    if st.1.due_date.isSome then
      ({ st.1 with due_date := none }, st.2 ++ ["due date → cleared"])
    else st
  else
    match due with
    | none => st
    | some newDue =>
        if st.1.due_date ≠ some newDue then
          ({ st.1 with due_date := some newDue },
            st.2 ++ ["due date → " ++ newDue.toStr])
        else st

/-- The `=== Dependencies ===` section of `src/commands/edit.rs`. -/
def editDeps (addDep removeDep : List Nat) (clearDeps : Bool)
    (st : Task × List String) : Task × List String :=
  if clearDeps then
    if ¬ st.1.depends_on.isEmpty then
      ({ st.1 with depends_on := [] },
        st.2 ++ ["dependencies cleared → was [" ++ String.intercalate ", "
          (st.1.depends_on.map (fun d => "#" ++ toString d)) ++ "]"])
    else st
  else
    let st1 :=
      if ¬ removeDep.isEmpty then
        ({ st.1 with
            depends_on := st.1.depends_on.filter (fun d => d ∉ removeDep) },
          st.2 ++ ["removed deps → [" ++ String.intercalate ", "
            (removeDep.map (fun d => "#" ++ toString d)) ++ "]"])
      else st
    if ¬ addDep.isEmpty then
      ({ st1.1 with depends_on := st1.1.depends_on ++ addDep },
        st1.2 ++ ["added deps → [" ++ String.intercalate ", "
          (addDep.map (fun d => "#" ++ toString d)) ++ "]"])
    else st1

/-- `execute` from `src/commands/edit.rs`: validate the id and all
dependency changes up front, then apply the partial updates section by
section, recording a change message for every actual mutation; when no
change was recorded the list is returned unchanged (the source prints "No
changes made" and skips the save).  Change messages are modelled without
terminal coloring. -/
def editExecute (tasks : List Task) (id : Nat) (text : Option String)
    (priority : Option Priority) (addTag removeTag : List String)
    (project : Option String) (clearProject : Bool) (due : Option Date)
    (clearDue : Bool) (clearTags : Bool) (addDep removeDep : List Nat)
    (clearDeps : Bool) : Except TodoError (List Task) :=
  match validateTaskId id tasks.length with
  | .error e => .error e
  | .ok _ =>
  match editValidateAddDeps tasks id addDep with
  | .error e => .error e
  | .ok _ =>
  match editValidateRemoveDeps tasks id removeDep with
  | .error e => .error e
  | .ok _ =>
  match editText text (tasks.getD (id - 1) defaultTask, []) with
  | .error e => .error e
  | .ok st1 =>
  match editProject project clearProject (editPriority priority st1) with
  | .error e => .error e
  | .ok st3 =>
  match editTags id addTag removeTag clearTags st3 with
  | .error e => .error e
  | .ok st4 =>
  let st6 := editDeps addDep removeDep clearDeps (editDue due clearDue st4)
  if st6.2.isEmpty then .ok tasks
  else .ok (tasks.set (id - 1) st6.1)


/-- Decidable equality of handler results, used to evaluate concrete runs
in witness theorems. -/
instance {ε α : Type} [DecidableEq ε] [DecidableEq α] :
    DecidableEq (Except ε α) := fun x y =>
  match x, y with
  | .error a, .error b =>
      if h : a = b then isTrue (by rw [h])
      else isFalse (by intro hc; cases hc; exact h rfl)
  | .error _, .ok _ => isFalse (by intro hc; cases hc)
  | .ok _, .error _ => isFalse (by intro hc; cases hc)
  | .ok a, .ok b =>
      if h : a = b then isTrue (by rw [h])
      else isFalse (by intro hc; cases hc; exact h rfl)

/-! Concrete fixture values used by the witness theorems. -/

/-- Fixture: a pending task with identifier 1. -/
def exTaskA : Task :=
  { uuid := 1, text := "a", completed := false, priority := .medium,
    tags := [], project := none, due_date := none,
    created_at := ⟨2026, 1, 1⟩, recurrence := none, parent_id := none,
    depends_on := [], completed_at := none }

/-- Fixture: a completed task with identifier 2. -/
def exTaskB : Task :=
  { uuid := 2, text := "b", completed := true, priority := .medium,
    tags := [], project := none, due_date := none,
    created_at := ⟨2026, 1, 1⟩, recurrence := none, parent_id := none,
    depends_on := [], completed_at := some ⟨2026, 1, 2⟩ }

/-- Fixture: a pending task depending on tasks 1 and 2 and on the dangling
identifier 99. -/
def exTaskC : Task :=
  { uuid := 3, text := "c", completed := false, priority := .medium,
    tags := [], project := none, due_date := none,
    created_at := ⟨2026, 1, 1⟩, recurrence := none, parent_id := none,
    depends_on := [1, 2, 99], completed_at := none }

/-- Fixture: a two-task list with one pending and one completed task. -/
def exTasksAB : List Task := [exTaskA, exTaskB]

/-- Fixture: three-task list whose third task is blocked by the first. -/
def exTasksABC : List Task := [exTaskA, exTaskB, exTaskC]

/-- Fixture: a pending daily-recurring task with a due date. -/
def exTaskR : Task :=
  { uuid := 7, text := "r", completed := false, priority := .high,
    tags := ["work"], project := some "p", due_date := some ⟨2026, 2, 10⟩,
    created_at := ⟨2026, 1, 1⟩, recurrence := some .daily, parent_id := none,
    depends_on := [], completed_at := none }

/-- Fixture: the occurrence spawned by completing `exTaskR` on
2026-02-10 with fresh identifier 100. -/
def exOcc : Task :=
  { Task.new 100 "r" .high ["work"] (some "p") (some ⟨2026, 2, 11⟩)
      (some .daily) ⟨2026, 2, 10⟩ with parent_id := some 7 }

/-- Fixture: the list after completing `exTaskR` (occurrence appended). -/
def exL1 : List Task := [exTaskR.markDone ⟨2026, 2, 10⟩, exOcc]

/-- Fixture: the list after un-completing `exTaskR` again. -/
def exL2 : List Task := [exTaskR, exOcc]

/-- Fixture: the list after re-completing `exTaskR`; no second occurrence
is inserted. -/
def exL3 : List Task := [exTaskR.markDone ⟨2026, 2, 12⟩, exOcc]

theorem reachesF_mono {f g : Nat → List Nat}
    (hfg : ∀ u, ∀ v ∈ f u, v ∈ g u) {x y : Nat} (h : ReachesF f x y) :
    ReachesF g x y := by
  induction h with
  | refl u => exact .refl u
  | step u v w hv _ ih => exact .step u v w (hfg u v hv) ih

theorem reachesF_closed {f : Nat → List Nat} {S : List Nat}
    (hcl : ∀ v ∈ S, ∀ w ∈ f v, w ∈ S) {x target : Nat}
    (hr : ReachesF f x target) : x ∈ S → target ∉ S → False := by
  induction hr with
  | refl u => intro h1 h2; exact h2 h1
  | step u v w hv _ ih => intro h1 h2; exact ih (hcl u h1 v hv) h2

theorem cycleDfs_true_sound (tasks : List Task) (target : Nat) :
    ∀ visited stack, cycleDfs tasks target visited stack = true →
      ∃ x ∈ stack, Reaches tasks x target := by
  intro visited stack
  induction visited, stack using cycleDfs.induct tasks target with
  | case1 v =>
      rw [cycleDfs]; intro h; exact absurd h (by simp)
  | case2 v rest =>
      intro _
      exact ⟨target, List.mem_cons_self _ _, ReachesF.refl target⟩
  | case3 v c rest htgt hvis ih =>
      rw [cycleDfs]
      simp only [if_neg htgt, dif_pos hvis]
      intro h
      obtain ⟨x, hx, hr⟩ := ih h
      exact ⟨x, List.mem_cons_of_mem _ hx, hr⟩
  | case4 v c rest htgt hvis ih =>
      rw [cycleDfs]
      simp only [if_neg htgt, dif_neg hvis]
      intro h
      obtain ⟨x, hx, hr⟩ := ih h
      rcases List.mem_append.mp hx with hx | hx
      · have hx' : x ∈ succs tasks c := List.mem_reverse.mp hx
        exact ⟨c, List.mem_cons_self _ _, ReachesF.step c x target hx' hr⟩
      · exact ⟨x, List.mem_cons_of_mem _ hx, hr⟩

theorem cycleDfs_false_complete (tasks : List Task) (target : Nat) :
    ∀ visited stack, cycleDfs tasks target visited stack = false →
      (∀ v ∈ visited, ∀ w ∈ succs tasks v, w ∈ visited ∨ w ∈ stack) →
      target ∉ visited →
      ∀ x, (x ∈ visited ∨ x ∈ stack) → ¬ Reaches tasks x target := by
  intro visited stack
  induction visited, stack using cycleDfs.induct tasks target with
  | case1 v =>
      intro _ hcl htv x hx hr
      have hcl' : ∀ u ∈ v, ∀ w ∈ succs tasks u, w ∈ v := by
        intro u hu w hw
        rcases hcl u hu w hw with h | h
        · exact h
        · exact absurd h (List.not_mem_nil w)
      rcases hx with hx | hx
      · exact reachesF_closed hcl' hr hx htv
      · exact absurd hx (List.not_mem_nil x)
  | case2 v rest =>
      rw [cycleDfs]
      simp only [if_pos rfl]
      intro h; exact absurd h (by simp)
  | case3 v c rest htgt hvis ih =>
      rw [cycleDfs]
      simp only [if_neg htgt, dif_pos hvis]
      intro h hcl htv x hx
      have hcl' : ∀ u ∈ v, ∀ w ∈ succs tasks u, w ∈ v ∨ w ∈ rest := by
        intro u hu w hw
        rcases hcl u hu w hw with hh | hh
        · exact .inl hh
        · rcases List.mem_cons.mp hh with hh | hh
          · exact .inl (hh ▸ hvis)
          · exact .inr hh
      have hx' : x ∈ v ∨ x ∈ rest := by
        rcases hx with hh | hh
        · exact .inl hh
        · rcases List.mem_cons.mp hh with hh | hh
          · exact .inl (hh ▸ hvis)
          · exact .inr hh
      exact ih h hcl' htv x hx'
  | case4 v c rest htgt hvis ih =>
      rw [cycleDfs]
      simp only [if_neg htgt, dif_neg hvis]
      intro h hcl htv x hx
      have htv' : target ∉ c :: v := by
        intro hh
        rcases List.mem_cons.mp hh with hh | hh
        · exact htgt hh.symm
        · exact htv hh
      have hcl' : ∀ u ∈ c :: v, ∀ w ∈ succs tasks u,
          w ∈ c :: v ∨ w ∈ (succs tasks c).reverse ++ rest := by
        intro u hu w hw
        rcases List.mem_cons.mp hu with hu | hu
        · subst hu
          exact .inr (List.mem_append.mpr (.inl (List.mem_reverse.mpr hw)))
        · rcases hcl u hu w hw with hh | hh
          · exact .inl (List.mem_cons_of_mem _ hh)
          · rcases List.mem_cons.mp hh with hh | hh
            · exact .inl (hh ▸ List.mem_cons_self _ _)
            · exact .inr (List.mem_append.mpr (.inr hh))
      have hx' : x ∈ c :: v ∨ x ∈ (succs tasks c).reverse ++ rest := by
        rcases hx with hh | hh
        · exact .inl (List.mem_cons_of_mem _ hh)
        · rcases List.mem_cons.mp hh with hh | hh
          · exact .inl (hh ▸ List.mem_cons_self _ _)
          · exact .inr (List.mem_append.mpr (.inr hh))
      exact ih h hcl' htv' x hx'

theorem detectCycle_err_iff (tasks : List Task) (a b : Nat) :
    (detectCycle tasks a b ≠ .ok ()) ↔ Reaches tasks b a := by
  unfold detectCycle
  by_cases h : cycleDfs tasks a [] [b] = true
  · simp only [h, if_true]
    constructor
    · intro _
      obtain ⟨x, hx, hr⟩ := cycleDfs_true_sound tasks a [] [b] h
      have : x = b := by simpa using hx
      exact this ▸ hr
    · intro _; simp
  · have h' : cycleDfs tasks a [] [b] = false := by
      cases hc : cycleDfs tasks a [] [b]
      · rfl
      · exact absurd hc h
    simp only [h', if_false]
    constructor
    · intro hh; exact absurd rfl hh
    · intro hr
      exact absurd hr (cycleDfs_false_complete tasks a [] [b] h'
        (by intro v hv; exact absurd hv (List.not_mem_nil v))
        (List.not_mem_nil a) b (.inr (List.mem_cons_self _ _)))

/-! ## Helper lemmas about resolution and blocking -/

theorem findTask_mem {tasks : List Task} {u : Nat} {t : Task}
    (h : findTask tasks u = some t) : t ∈ tasks ∧ t.uuid = u := by
  induction tasks with
  | nil => simp [findTask] at h
  | cons s ts ih =>
      rw [findTask] at h
      by_cases hs : s.uuid = u
      · rw [if_pos hs] at h
        cases h
        exact ⟨List.mem_cons_self _ _, hs⟩
      · rw [if_neg hs] at h
        obtain ⟨h1, h2⟩ := ih h
        exact ⟨List.mem_cons_of_mem _ h1, h2⟩

theorem findTask_eq_none_iff {tasks : List Task} {u : Nat} :
    findTask tasks u = none ↔ ∀ t ∈ tasks, t.uuid ≠ u := by
  induction tasks with
  | nil => simp [findTask]
  | cons s ts ih =>
      rw [findTask]
      by_cases hs : s.uuid = u
      · simp [hs]
      · simp [hs, ih]

theorem findTask_eq_some_of_mem {tasks : List Task} {u : Nat} {t : Task}
    (hnd : (tasks.map Task.uuid).Nodup) (ht : t ∈ tasks) (hu : t.uuid = u) :
    findTask tasks u = some t := by
  induction tasks with
  | nil => exact absurd ht (List.not_mem_nil t)
  | cons s ts ih =>
      rw [List.map_cons, List.nodup_cons] at hnd
      rw [findTask]
      rcases List.mem_cons.mp ht with h | h
      · subst h
        rw [if_pos hu]
      · by_cases hs : s.uuid = u
        · exfalso
          apply hnd.1
          rw [hs, ← hu]
          exact List.mem_map_of_mem Task.uuid h
        · rw [if_neg hs]
          exact ih hnd.2 h

theorem blockedBy_true_iff {tasks : List Task} {u : Nat}
    (hnd : (tasks.map Task.uuid).Nodup) :
    blockedBy tasks u = true ↔
      ∃ t ∈ tasks, t.uuid = u ∧ t.completed = false := by
  constructor
  · intro h
    unfold blockedBy at h
    cases hf : findTask tasks u with
    | none => rw [hf] at h; simp at h
    | some t =>
        rw [hf] at h
        obtain ⟨h1, h2⟩ := findTask_mem hf
        refine ⟨t, h1, h2, ?_⟩
        simpa using h
  · rintro ⟨t, h1, h2, h3⟩
    unfold blockedBy
    rw [findTask_eq_some_of_mem hnd h1 h2]
    simp [h3]

theorem isBlocked_iff_blockingDeps_ne (t : Task) (tasks : List Task) :
    t.isBlocked tasks = true ↔ t.blockingDeps tasks ≠ [] := by
  unfold Task.isBlocked Task.blockingDeps
  rw [List.any_eq_true]
  constructor
  · rintro ⟨u, hu, hb⟩ hnil
    have : u ∈ t.depends_on.filter (fun d => blockedBy tasks d) :=
      List.mem_filter.mpr ⟨hu, hb⟩
    rw [hnil] at this
    exact List.not_mem_nil u this
  · intro hne
    cases hf : t.depends_on.filter (fun d => blockedBy tasks d) with
    | nil => exact absurd hf hne
    | cons u rest =>
        have : u ∈ t.depends_on.filter (fun d => blockedBy tasks d) := by
          rw [hf]; exact List.mem_cons_self _ _
        obtain ⟨h1, h2⟩ := List.mem_filter.mp this
        exact ⟨u, h1, h2⟩

/-! ## C4: blocking queries -/

/-- C4: `is_blocked` is true iff some identifier in `depends_on` resolves
to a task of the list whose `completed` field is false (an identifier
matching no task never counts as blocking), and `blocking_deps` is exactly
the subset of `depends_on` whose resolved task exists and is incomplete.
Stated under uniqueness of identifiers, the data model's invariant that
makes "resolves to" unambiguous. -/
theorem is_blocked_and_blocking_deps_characterize (t : Task)
    (tasks : List Task) (hnd : (tasks.map Task.uuid).Nodup) :
    (t.isBlocked tasks = true ↔
      ∃ dep ∈ t.depends_on, ∃ u ∈ tasks, u.uuid = dep ∧ u.completed = false) ∧
    t.blockingDeps tasks = t.depends_on.filter
      (fun dep => tasks.any (fun u => u.uuid == dep && !u.completed)) := by
  have hpt : ∀ d : Nat, blockedBy tasks d =
      tasks.any (fun u => u.uuid == d && !u.completed) := by
    intro d
    by_cases hb : blockedBy tasks d = true
    · rw [hb]
      obtain ⟨u, h1, h2, h3⟩ := (blockedBy_true_iff hnd).mp hb
      have : tasks.any (fun u => u.uuid == d && !u.completed) = true := by
        rw [List.any_eq_true]
        exact ⟨u, h1, by simp [h2, h3]⟩
      rw [this]
    · have hb' : blockedBy tasks d = false := by
        cases h : blockedBy tasks d
        · rfl
        · exact absurd h hb
      rw [hb']
      by_cases ha : tasks.any (fun u => u.uuid == d && !u.completed) = true
      · exfalso
        rw [List.any_eq_true] at ha
        obtain ⟨u, h1, h2⟩ := ha
        simp only [Bool.and_eq_true, beq_iff_eq, Bool.not_eq_true'] at h2
        exact hb ((blockedBy_true_iff hnd).mpr ⟨u, h1, h2.1, h2.2⟩)
      · cases h : tasks.any (fun u => u.uuid == d && !u.completed)
        · rfl
        · exact absurd h ha
  constructor
  · unfold Task.isBlocked
    rw [List.any_eq_true]
    constructor
    · rintro ⟨dep, h1, h2⟩
      obtain ⟨u, hu1, hu2, hu3⟩ := (blockedBy_true_iff hnd).mp h2
      exact ⟨dep, h1, u, hu1, hu2, hu3⟩
    · rintro ⟨dep, h1, u, hu1, hu2, hu3⟩
      exact ⟨dep, h1, (blockedBy_true_iff hnd).mpr ⟨u, hu1, hu2, hu3⟩⟩
  · unfold Task.blockingDeps
    exact List.filter_congr (fun d _ => hpt d)

/-- Witness for `is_blocked_and_blocking_deps_characterize`: a task
depending on one incomplete, one completed, and one dangling identifier is
blocked exactly by the incomplete one. -/
theorem is_blocked_and_blocking_deps_characterize_witness :
    ((exTasksAB.map Task.uuid).Nodup) ∧
    ((exTaskC.isBlocked exTasksAB = true ↔
      ∃ dep ∈ exTaskC.depends_on, ∃ u ∈ exTasksAB,
        u.uuid = dep ∧ u.completed = false) ∧
    exTaskC.blockingDeps exTasksAB = exTaskC.depends_on.filter
      (fun dep => exTasksAB.any (fun u => u.uuid == dep && !u.completed))) :=
  ⟨by decide, is_blocked_and_blocking_deps_characterize exTaskC exTasksAB (by decide)⟩


/-! ## C1: cycle detection decides reachability -/

/-- C1: on a task list whose `depends_on` edges are acyclic, `detect_cycle`
reports a cycle if and only if `taskId` is reachable from `candidateDepId`
by following existing `depends_on` edges forward; in particular, for an
edge whose addition keeps the graph acyclic it reports no cycle. -/
theorem detect_cycle_iff_reachable (tasks : List Task)
    (hacyc : Acyclic tasks) (taskId candidateDepId : Nat) :
    ((detectCycle tasks taskId candidateDepId ≠ .ok ()) ↔
        Reaches tasks candidateDepId taskId) ∧
      (AcyclicF (succsPlus tasks taskId candidateDepId) →
        detectCycle tasks taskId candidateDepId = .ok ()) := by
  refine ⟨detectCycle_err_iff tasks taskId candidateDepId, ?_⟩
  intro hplus
  by_contra h
  have hr : Reaches tasks candidateDepId taskId :=
    (detectCycle_err_iff tasks taskId candidateDepId).mp h
  have hr' : ReachesF (succsPlus tasks taskId candidateDepId)
      candidateDepId taskId := by
    refine reachesF_mono (fun u v hv => ?_) hr
    unfold succsPlus
    by_cases hu : u = taskId
    · rw [if_pos hu]
      exact List.mem_cons_of_mem _ hv
    · rw [if_neg hu]
      exact hv
  have hmem : candidateDepId ∈ succsPlus tasks taskId candidateDepId taskId := by
    unfold succsPlus
    rw [if_pos rfl]
    exact List.mem_cons_self _ _
  exact hplus taskId candidateDepId hmem hr'

/-- Witness for `detect_cycle_iff_reachable`: the empty task list is
acyclic, stays acyclic after adding the edge 0 → 1, and the check reports
no cycle there. -/
theorem detect_cycle_iff_reachable_witness :
    Acyclic ([] : List Task) ∧
    AcyclicF (succsPlus [] 0 1) ∧
    ((detectCycle [] 0 1 ≠ .ok ()) ↔ Reaches [] 1 0) ∧
    detectCycle [] 0 1 = .ok () := by
  have hA : Acyclic ([] : List Task) := by
    intro u v hv
    simp [succs, findTask] at hv
  have hB : AcyclicF (succsPlus [] 0 1) := by
    intro u v hv hr
    unfold succsPlus at hv
    by_cases hu : u = 0
    · subst hu
      rw [if_pos rfl] at hv
      have hv1 : v = 1 := by
        rcases List.mem_cons.mp hv with h | h
        · exact h
        · simp [succs, findTask] at h
      subst hv1
      cases hr with
      | step u v w hv2 hr2 =>
          unfold succsPlus at hv2
          simp [succs, findTask] at hv2
    · rw [if_neg hu] at hv
      simp [succs, findTask] at hv
  exact ⟨hA, hB, (detect_cycle_iff_reachable [] hA 0 1).1,
    (detect_cycle_iff_reachable [] hA 0 1).2 hB⟩

/-! ## C6: recurrence date arithmetic -/

theorem one_le_daysInMonth (y m : Nat) : 1 ≤ daysInMonth y m := by
  unfold daysInMonth
  split_ifs <;> omega

/-- C6: `next_date` adds one day for Daily and seven days for Weekly, and
for Monthly moves to the next calendar month (rolling into the next year
after December) with the day-of-month kept when it exists and otherwise
clamped to the target month's last day, never leaving the target month;
with the four concrete instances of the spec. -/
theorem next_date_correct (d : Date) (hv : d.Valid) :
    Recurrence.nextDate .daily d = d.addDays 1 ∧
    Recurrence.nextDate .weekly d = d.addDays 7 ∧
    ((Recurrence.nextDate .monthly d).year =
        (if d.month = 12 then d.year + 1 else d.year) ∧
      (Recurrence.nextDate .monthly d).month =
        (if d.month = 12 then 1 else d.month + 1) ∧
      (Recurrence.nextDate .monthly d).day =
        (if d.day ≤ daysInMonth (Recurrence.nextDate .monthly d).year
            (Recurrence.nextDate .monthly d).month then d.day
          else daysInMonth (Recurrence.nextDate .monthly d).year
            (Recurrence.nextDate .monthly d).month) ∧
      (Recurrence.nextDate .monthly d).Valid) ∧
    Recurrence.nextDate .daily ⟨2026, 2, 10⟩ = ⟨2026, 2, 11⟩ ∧
    Recurrence.nextDate .weekly ⟨2026, 2, 10⟩ = ⟨2026, 2, 17⟩ ∧
    Recurrence.nextDate .monthly ⟨2026, 1, 31⟩ = ⟨2026, 2, 28⟩ ∧
    Recurrence.nextDate .monthly ⟨2026, 2, 10⟩ = ⟨2026, 3, 10⟩ := by
  obtain ⟨h1, h2, h3, h4⟩ := hv
  refine ⟨rfl, rfl, ?_, by decide, by decide, by decide, by decide⟩
  by_cases hm : d.month = 12
  · simp only [Recurrence.nextDate, Date.addOneMonth, hm, if_true]
    have hd' : 1 ≤ daysInMonth (d.year + 1) 1 := one_le_daysInMonth _ _
    refine ⟨trivial, trivial, by rw [Nat.min_def], ?_⟩
    unfold Date.Valid
    dsimp only
    exact ⟨by omega, by omega, le_min h3 hd', Nat.min_le_right _ _⟩
  · simp only [Recurrence.nextDate, Date.addOneMonth, hm, if_false]
    have hd' : 1 ≤ daysInMonth d.year (d.month + 1) := one_le_daysInMonth _ _
    refine ⟨trivial, trivial, by rw [Nat.min_def], ?_⟩
    unfold Date.Valid
    dsimp only
    exact ⟨by omega, by omega, le_min h3 hd', Nat.min_le_right _ _⟩

/-- Witness for `next_date_correct` at the valid date 2026-01-31. -/
theorem next_date_correct_witness :
    (Date.Valid ⟨2026, 1, 31⟩) ∧
    (Recurrence.nextDate .monthly ⟨2026, 1, 31⟩ = ⟨2026, 2, 28⟩ ∧
      Recurrence.nextDate .daily ⟨2026, 2, 10⟩ = ⟨2026, 2, 11⟩) := by
  refine ⟨by decide, ?_, ?_⟩
  · exact (next_date_correct ⟨2026, 1, 31⟩ (by decide)).2.2.2.2.2.1
  · exact (next_date_correct ⟨2026, 1, 31⟩ (by decide)).2.2.2.1

/-! ## C7: spawning the next occurrence -/

/-- C7: `create_next_recurrence` (invoked the way `done.rs` invokes it,
with the task's own identifier as parent) returns `None` exactly when
recurrence or due date is absent; otherwise it returns a task with the same
text, priority, tags, project and recurrence, the next due date, the fresh
identity (distinct from the source task's), `parent_id` pointing at the
source task, `completed = false` and no dependencies. -/
theorem create_next_recurrence_correct (t : Task) (freshUuid : Nat)
    (today : Date) (hfresh : freshUuid ≠ t.uuid) :
    (t.createNextRecurrence t.uuid freshUuid today = none ↔
      t.recurrence = none ∨ t.due_date = none) ∧
    (∀ r d, t.recurrence = some r → t.due_date = some d →
      t.createNextRecurrence t.uuid freshUuid today = some
        { uuid := freshUuid, text := t.text, completed := false,
          priority := t.priority, tags := t.tags, project := t.project,
          due_date := some (r.nextDate d), created_at := today,
          recurrence := some r, parent_id := some t.uuid,
          depends_on := [], completed_at := none } ∧
      freshUuid ≠ t.uuid) := by
  constructor
  · unfold Task.createNextRecurrence
    cases hr : t.recurrence with
    | none => simp
    | some r =>
        cases hd : t.due_date with
        | none => simp
        | some d => simp [Task.new]
  · intro r d hr hd
    refine ⟨?_, hfresh⟩
    unfold Task.createNextRecurrence
    rw [hr, hd]
    rfl

/-- Witness for `create_next_recurrence_correct`: the daily-recurring
fixture task spawns its 2026-02-11 occurrence. -/
theorem create_next_recurrence_correct_witness :
    ((100 : Nat) ≠ exTaskR.uuid) ∧
    (exTaskR.createNextRecurrence exTaskR.uuid 100 ⟨2026, 2, 11⟩ = some
      { uuid := 100, text := exTaskR.text, completed := false,
        priority := exTaskR.priority, tags := exTaskR.tags,
        project := exTaskR.project,
        due_date := some (Recurrence.nextDate .daily ⟨2026, 2, 10⟩),
        created_at := ⟨2026, 2, 11⟩, recurrence := some .daily,
        parent_id := some exTaskR.uuid, depends_on := [],
        completed_at := none } ∧
      (100 : Nat) ≠ exTaskR.uuid) := by
  refine ⟨by decide, ?_⟩
  exact (create_next_recurrence_correct exTaskR 100 ⟨2026, 2, 11⟩
    (by decide)).2 .daily ⟨2026, 2, 10⟩ rfl rfl

/-! ## C10: removal frame conditions -/

theorem validateTaskId_ok {id max : Nat} (h1 : 1 ≤ id) (h2 : id ≤ max) :
    validateTaskId id max = .ok () := by
  unfold validateTaskId
  rw [if_neg (by omega)]

/-- C10: for a valid 1-based position, Remove returns the list with exactly
that position erased: the length drops by one, tasks before the position
keep their slot, tasks after it shift down one slot with all fields (in
particular `depends_on`) untouched, and an identifier that resolves to no
task in the result never blocks and never appears among blocking
dependencies (the missing-dependency default). -/
theorem remove_deletes_exactly_one (tasks : List Task) (id : Nat)
    (hid : 1 ≤ id ∧ id ≤ tasks.length) :
    removeExecute tasks id = .ok (tasks.eraseIdx (id - 1)) ∧
    (tasks.eraseIdx (id - 1)).length = tasks.length - 1 ∧
    (∀ j, j < id - 1 → (tasks.eraseIdx (id - 1))[j]? = tasks[j]?) ∧
    (∀ j, id - 1 ≤ j → (tasks.eraseIdx (id - 1))[j]? = tasks[j + 1]?) ∧
    (∀ (t : Task) (u : Nat), findTask (tasks.eraseIdx (id - 1)) u = none →
      blockedBy (tasks.eraseIdx (id - 1)) u = false ∧
      u ∉ t.blockingDeps (tasks.eraseIdx (id - 1))) := by
  refine ⟨?_, ?_, ?_, ?_, ?_⟩
  · unfold removeExecute
    rw [validateTaskId_ok hid.1 hid.2]
  · have h : id - 1 < tasks.length := by omega
    rw [List.length_eraseIdx, if_pos h]
  · intro j hj
    rw [List.getElem?_eraseIdx, if_pos hj]
  · intro j hj
    rw [List.getElem?_eraseIdx, if_neg (by omega)]
  · intro t u hnone
    have hb : blockedBy (tasks.eraseIdx (id - 1)) u = false := by
      unfold blockedBy
      rw [hnone]
    refine ⟨hb, ?_⟩
    intro hmem
    have := (List.mem_filter.mp hmem).2
    rw [hb] at this
    exact absurd this (by simp)

/-- Witness for `remove_deletes_exactly_one` on the two-task fixture list. -/
theorem remove_deletes_exactly_one_witness :
    (1 ≤ 1 ∧ 1 ≤ exTasksAB.length) ∧
    removeExecute exTasksAB 1 = .ok (exTasksAB.eraseIdx 0) ∧
    (exTasksAB.eraseIdx 0).length = exTasksAB.length - 1 ∧
    (∀ j, 0 ≤ j → (exTasksAB.eraseIdx 0)[j]? = exTasksAB[j + 1]?) := by
  have h := remove_deletes_exactly_one exTasksAB 1 (by constructor <;> decide)
  exact ⟨by constructor <;> decide, h.1, h.2.1, h.2.2.2.1⟩

/-! ## C2: the mark-done state machine -/

/-- C2: for a valid position, `done` fails on an already-completed task,
fails on a blocked task with an error naming the blocking identifiers
(computed by `blocking_deps`), and on a pending unblocked task succeeds
with the addressed task marked completed at the operation date. -/
theorem mark_done_gating (tasks : List Task) (id : Nat) (today : Date)
    (freshUuid : Nat) (hid : 1 ≤ id ∧ id ≤ tasks.length) :
    ((tasks.getD (id - 1) defaultTask).completed = true →
      doneExecute tasks id today freshUuid =
        .error (.taskAlreadyInStatus id "completed")) ∧
    ((tasks.getD (id - 1) defaultTask).completed = false →
      (tasks.getD (id - 1) defaultTask).isBlocked tasks = true →
      doneExecute tasks id today freshUuid =
        .error (.taskBlocked id (blockedIdsMsg tasks
          ((tasks.getD (id - 1) defaultTask).blockingDeps tasks)))) ∧
    ((tasks.getD (id - 1) defaultTask).completed = false →
      (tasks.getD (id - 1) defaultTask).isBlocked tasks = false →
      ∃ L, doneExecute tasks id today freshUuid = .ok L ∧
        L.getD (id - 1) defaultTask =
          (tasks.getD (id - 1) defaultTask).markDone today ∧
        (L.getD (id - 1) defaultTask).completed = true ∧
        (L.getD (id - 1) defaultTask).completed_at = some today) := by
  have hidx : id - 1 < tasks.length := by omega
  refine ⟨?_, ?_, ?_⟩
  · intro hc
    unfold doneExecute
    rw [validateTaskId_ok hid.1 hid.2]
    simp only [hc, if_true]
  · intro hc hb
    have hne : (tasks.getD (id - 1) defaultTask).blockingDeps tasks ≠ [] :=
      (isBlocked_iff_blockingDeps_ne _ _).mp hb
    unfold doneExecute
    rw [validateTaskId_ok hid.1 hid.2]
    simp only [hc, Bool.false_eq_true, if_false]
    rw [if_pos]
    intro hempty
    exact hne (List.isEmpty_iff.mp hempty)
  · intro hc hb
    have hnil : (tasks.getD (id - 1) defaultTask).blockingDeps tasks = [] := by
      by_cases h : (tasks.getD (id - 1) defaultTask).blockingDeps tasks = []
      · exact h
      · exact absurd ((isBlocked_iff_blockingDeps_ne _ _).mpr h) (by rw [hb]; simp)
    have hgetset : ∀ x : Task, (tasks.set (id - 1) x).getD (id - 1)
        defaultTask = x := by
      intro x
      rw [List.getD_eq_getElem?_getD, List.getElem?_set_self hidx]
      rfl
    unfold doneExecute
    rw [validateTaskId_ok hid.1 hid.2]
    simp only [hc, Bool.false_eq_true, if_false]
    rw [if_neg (by rw [hnil]; simp)]
    cases hnr : ((tasks.getD (id - 1) defaultTask).markDone today).createNextRecurrence
        ((tasks.getD (id - 1) defaultTask).markDone today).uuid freshUuid today with
    | none =>
        refine ⟨_, rfl, ?_⟩
        rw [hgetset]
        exact ⟨rfl, rfl, rfl⟩
    | some nextTask =>
        dsimp only
        by_cases hex : ((tasks.set (id - 1)
            ((tasks.getD (id - 1) defaultTask).markDone today)).any (fun t =>
              !t.completed && t.due_date == some (nextTask.due_date.getD defaultDate) &&
                (t.parent_id == some ((tasks.getD (id - 1) defaultTask).markDone today).uuid ||
                  t.text == nextTask.text))) = true
        · rw [if_pos hex]
          refine ⟨_, rfl, ?_⟩
          rw [hgetset]
          exact ⟨rfl, rfl, rfl⟩
        · rw [if_neg hex]
          refine ⟨_, rfl, ?_⟩
          have hlen : id - 1 < (tasks.set (id - 1)
              ((tasks.getD (id - 1) defaultTask).markDone today)).length := by
            rw [List.length_set]
            exact hidx
          rw [List.getD_eq_getElem?_getD, List.getElem?_append_left hlen,
            ← List.getD_eq_getElem?_getD, hgetset]
          exact ⟨rfl, rfl, rfl⟩

/-- Witness for `mark_done_gating`: all three branches on fixture lists —
re-completing the completed task 2 fails, completing the blocked task 3
fails naming its blocker, completing the pending unblocked task 1
succeeds. -/
theorem mark_done_gating_witness :
    (1 ≤ 2 ∧ 2 ≤ exTasksAB.length) ∧
    doneExecute exTasksAB 2 ⟨2026, 3, 1⟩ 50 =
      .error (.taskAlreadyInStatus 2 "completed") ∧
    doneExecute exTasksABC 3 ⟨2026, 3, 1⟩ 50 =
      .error (.taskBlocked 3 (blockedIdsMsg exTasksABC
        ((exTasksABC.getD 2 defaultTask).blockingDeps exTasksABC))) ∧
    (∃ L, doneExecute exTasksAB 1 ⟨2026, 3, 1⟩ 50 = .ok L ∧
      L.getD 0 defaultTask =
        (exTasksAB.getD 0 defaultTask).markDone ⟨2026, 3, 1⟩ ∧
      (L.getD 0 defaultTask).completed = true ∧
      (L.getD 0 defaultTask).completed_at = some ⟨2026, 3, 1⟩) := by
  refine ⟨⟨by decide, by decide⟩, ?_, ?_, ?_⟩
  · exact (mark_done_gating exTasksAB 2 ⟨2026, 3, 1⟩ 50
      ⟨by decide, by decide⟩).1 (by decide)
  · exact (mark_done_gating exTasksABC 3 ⟨2026, 3, 1⟩ 50
      ⟨by decide, by decide⟩).2.1 (by decide) (by decide)
  · exact (mark_done_gating exTasksAB 1 ⟨2026, 3, 1⟩ 50
      ⟨by decide, by decide⟩).2.2 (by decide) (by decide)

/-! ## C9: tag normalization -/

theorem minByDist_go (l : List (String × Nat)) :
    ∀ acc : String × Nat,
      ∃ p, l.foldl
          (fun best q =>
            match best with
            | none => some q
            | some r => if q.2 < r.2 then some q else some r)
          (some acc) = some p ∧
        (p = acc ∨ p ∈ l) ∧ p.2 ≤ acc.2 ∧ ∀ q ∈ l, p.2 ≤ q.2 := by
  induction l with
  | nil =>
      intro acc
      exact ⟨acc, rfl, .inl rfl, le_refl _, by intro q hq; cases hq⟩
  | cons x xs ih =>
      intro acc
      rw [List.foldl_cons]
      by_cases hx : x.2 < acc.2
      · dsimp only
        rw [if_pos hx]
        obtain ⟨p, h1, h2, h3, h4⟩ := ih x
        refine ⟨p, h1, ?_, ?_, ?_⟩
        · rcases h2 with h | h
          · exact .inr (h ▸ List.mem_cons_self _ _)
          · exact .inr (List.mem_cons_of_mem _ h)
        · exact le_trans h3 (le_of_lt hx)
        · intro q hq
          rcases List.mem_cons.mp hq with h | h
          · exact h ▸ h3
          · exact h4 q h
      · dsimp only
        rw [if_neg hx]
        obtain ⟨p, h1, h2, h3, h4⟩ := ih acc
        refine ⟨p, h1, ?_, h3, ?_⟩
        · rcases h2 with h | h
          · exact .inl h
          · exact .inr (List.mem_cons_of_mem _ h)
        · intro q hq
          rcases List.mem_cons.mp hq with h | h
          · subst h
            omega
          · exact h4 q h

theorem minByDist_some_spec (l : List (String × Nat)) (hne : l ≠ []) :
    ∃ p, minByDist l = some p ∧ p ∈ l ∧ ∀ q ∈ l, p.2 ≤ q.2 := by
  cases l with
  | nil => exact absurd rfl hne
  | cons x xs =>
      unfold minByDist
      rw [List.foldl_cons]
      obtain ⟨p, h1, h2, h3, h4⟩ := minByDist_go xs x
      refine ⟨p, h1, ?_, ?_⟩
      · rcases h2 with h | h
        · exact h ▸ List.mem_cons_self _ _
        · exact List.mem_cons_of_mem _ h
      · intro q hq
        rcases List.mem_cons.mp hq with h | h
        · exact h ▸ h3
        · exact h4 q h

/-- C9: `normalize_tag` resolves, in order: an exact match is used
unchanged; otherwise a case-insensitive match normalizes to an existing
tag's casing; otherwise an existing tag at minimal Levenshtein distance
over lower-cased forms is used when within the length-dependent threshold
(1 for candidate length ≤ 4, 2 for length ≥ 5); otherwise the tag is new;
with the four concrete instances of the spec. -/
theorem normalize_tag_resolution (tag : String)
    (existingTags : List String) :
    (tag ∈ existingTags → normalizeTag tag existingTags = .unchanged) ∧
    (tag ∉ existingTags →
      (∃ e ∈ existingTags, toLowerStr e = toLowerStr tag) →
      ∃ e ∈ existingTags, toLowerStr e = toLowerStr tag ∧
        normalizeTag tag existingTags = .normalized tag e) ∧
    (tag ∉ existingTags →
      (∀ e ∈ existingTags, toLowerStr e ≠ toLowerStr tag) →
      (∃ e ∈ existingTags, levStr (toLowerStr tag) (toLowerStr e) ≤
        (if tag.length ≤ 4 then 1 else 2)) →
      ∃ e ∈ existingTags,
        levStr (toLowerStr tag) (toLowerStr e) ≤
          (if tag.length ≤ 4 then 1 else 2) ∧
        (∀ e' ∈ existingTags, levStr (toLowerStr tag) (toLowerStr e) ≤
          levStr (toLowerStr tag) (toLowerStr e')) ∧
        normalizeTag tag existingTags = .normalized tag e) ∧
    (tag ∉ existingTags →
      (∀ e ∈ existingTags, toLowerStr e ≠ toLowerStr tag) →
      (∀ e ∈ existingTags, (if tag.length ≤ 4 then 1 else 2) <
        levStr (toLowerStr tag) (toLowerStr e)) →
      normalizeTag tag existingTags = .new) ∧
    normalizeTag "Rust" ["rust"] = .normalized "Rust" "rust" ∧
    normalizeTag "rusr" ["rust"] = .normalized "rusr" "rust" ∧
    normalizeTag "fronteend" ["frontend"] =
      .normalized "fronteend" "frontend" ∧
    normalizeTag "python" ["rust"] = .new := by
  have hany : tag ∉ existingTags →
      (existingTags.any (fun t => t == tag)) ≠ true := by
    intro hni hcontra
    rw [List.any_eq_true] at hcontra
    obtain ⟨t, ht, hbeq⟩ := hcontra
    have ht' : t = tag := by simpa using hbeq
    exact hni (ht' ▸ ht)
  refine ⟨?_, ?_, ?_, ?_, by decide, by decide, by decide, by decide⟩
  · intro h
    unfold normalizeTag
    rw [if_pos]
    rw [List.any_eq_true]
    exact ⟨tag, h, beq_self_eq_true tag⟩
  · intro hni hex
    unfold normalizeTag
    rw [if_neg (hany hni)]
    dsimp only
    cases hf : existingTags.find? (fun t => toLowerStr t == toLowerStr tag) with
    | none =>
        exfalso
        rw [List.find?_eq_none] at hf
        obtain ⟨e, he, heq⟩ := hex
        exact hf e he (by rw [beq_iff_eq]; exact heq)
    | some e =>
        have hmem := List.mem_of_find?_eq_some hf
        have hpe := List.find?_some hf
        rw [beq_iff_eq] at hpe
        exact ⟨e, hmem, hpe, rfl⟩
  · intro hni hci hfuzzy
    unfold normalizeTag
    rw [if_neg (hany hni)]
    dsimp only
    have hf : existingTags.find?
        (fun t => toLowerStr t == toLowerStr tag) = none := by
      rw [List.find?_eq_none]
      intro e he
      rw [beq_iff_eq]
      exact hci e he
    rw [hf]
    obtain ⟨e, he, hthr⟩ := hfuzzy
    have hmem : (e, levStr (toLowerStr tag) (toLowerStr e)) ∈
        ((existingTags.map
          (fun t => (t, levStr (toLowerStr tag) (toLowerStr t)))).filter
            (fun p => p.2 ≤ (if tag.length ≤ 4 then 1 else 2))) := by
      rw [List.mem_filter]
      exact ⟨List.mem_map_of_mem _ he, by simpa using hthr⟩
    have hne : ((existingTags.map
        (fun t => (t, levStr (toLowerStr tag) (toLowerStr t)))).filter
          (fun p => p.2 ≤ (if tag.length ≤ 4 then 1 else 2))) ≠ [] := by
      intro hnil
      rw [hnil] at hmem
      exact List.not_mem_nil _ hmem
    obtain ⟨p, hp1, hp2, hp3⟩ := minByDist_some_spec _ hne
    obtain ⟨hpmap, hple⟩ := List.mem_filter.mp hp2
    obtain ⟨e₀, he₀, hpe⟩ := List.mem_map.mp hpmap
    subst hpe
    rw [hp1]
    refine ⟨e₀, he₀, by simpa using hple, ?_, rfl⟩
    intro e' he'
    by_cases h' : levStr (toLowerStr tag) (toLowerStr e') ≤
        (if tag.length ≤ 4 then 1 else 2)
    · have hmem' : (e', levStr (toLowerStr tag) (toLowerStr e')) ∈
          ((existingTags.map
            (fun t => (t, levStr (toLowerStr tag) (toLowerStr t)))).filter
              (fun p => p.2 ≤ (if tag.length ≤ 4 then 1 else 2))) := by
        rw [List.mem_filter]
        exact ⟨List.mem_map_of_mem _ he', by simpa using h'⟩
      have := hp3 _ hmem'
      simpa using this
    · have h1 : levStr (toLowerStr tag) (toLowerStr e₀) ≤
          (if tag.length ≤ 4 then 1 else 2) := by
        simpa using hple
      omega
  · intro hni hci hfar
    unfold normalizeTag
    rw [if_neg (hany hni)]
    dsimp only
    have hf : existingTags.find?
        (fun t => toLowerStr t == toLowerStr tag) = none := by
      rw [List.find?_eq_none]
      intro e he
      rw [beq_iff_eq]
      exact hci e he
    rw [hf]
    have hnil : ((existingTags.map
        (fun t => (t, levStr (toLowerStr tag) (toLowerStr t)))).filter
          (fun p => p.2 ≤ (if tag.length ≤ 4 then 1 else 2))) = [] := by
      rw [List.filter_eq_nil]
      intro p hp
      obtain ⟨e₀, he₀, hpe⟩ := List.mem_map.mp hp
      subst hpe
      have := hfar e₀ he₀
      simp only [decide_eq_true_eq]
      omega
    rw [hnil]
    rfl

/-- Witness for `normalize_tag_resolution`: each of the four resolution
branches discharged on the spec's concrete examples. -/
theorem normalize_tag_resolution_witness :
    normalizeTag "rust" ["rust"] = .unchanged ∧
    (∃ e ∈ ["rust"], toLowerStr e = toLowerStr "Rust" ∧
      normalizeTag "Rust" ["rust"] = .normalized "Rust" e) ∧
    (∃ e ∈ ["rust"],
      levStr (toLowerStr "rusr") (toLowerStr e) ≤
        (if "rusr".length ≤ 4 then 1 else 2) ∧
      (∀ e' ∈ ["rust"], levStr (toLowerStr "rusr") (toLowerStr e) ≤
        levStr (toLowerStr "rusr") (toLowerStr e')) ∧
      normalizeTag "rusr" ["rust"] = .normalized "rusr" e) ∧
    normalizeTag "python" ["rust"] = .new := by
  refine ⟨?_, ?_, ?_, ?_⟩
  · exact (normalize_tag_resolution "rust" ["rust"]).1 (by decide)
  · exact (normalize_tag_resolution "Rust" ["rust"]).2.1 (by decide)
      ⟨"rust", by decide, by decide⟩
  · exact (normalize_tag_resolution "rusr" ["rust"]).2.2.1 (by decide)
      (by decide) ⟨"rust", by decide, by decide⟩
  · exact (normalize_tag_resolution "python" ["rust"]).2.2.2.1 (by decide)
      (by decide) (by decide)

/-! ## C5: the recurrence-implies-due-date invariant -/

theorem validateTaskId_ok_iff {id max : Nat} :
    validateTaskId id max = .ok () ↔ 1 ≤ id ∧ id ≤ max := by
  unfold validateTaskId
  by_cases h : id = 0 ∨ id > max
  · rw [if_pos h]
    constructor
    · intro hc
      exact absurd hc (by simp)
    · intro hc
      exact absurd h (by omega)
  · rw [if_neg h]
    constructor
    · intro _
      omega
    · intro _
      rfl

theorem except_bind_ok {α β : Type} {x : Except TodoError α}
    {f : α → Except TodoError β} {b : β}
    (h : (x >>= f) = .ok b) : ∃ a, x = .ok a ∧ f a = .ok b := by
  cases x with
  | error e => exact absurd h (by simp [Bind.bind, Except.bind])
  | ok a => exact ⟨a, rfl, by simpa [Bind.bind, Except.bind] using h⟩

theorem getD_mem {tasks : List Task} {i : Nat} (h : i < tasks.length) :
    tasks.getD i defaultTask ∈ tasks := by
  rw [List.getD_eq_getElem?_getD, List.getElem?_eq_getElem h]
  exact List.getElem_mem h

theorem editText_fields {text : Option String} {st st' : Task × List String}
    (h : editText text st = .ok st') :
    st'.1.recurrence = st.1.recurrence ∧ st'.1.due_date = st.1.due_date := by
  cases text with
  | none =>
      simp only [editText, Except.ok.injEq] at h
      subst h
      exact ⟨rfl, rfl⟩
  | some newText =>
      simp only [editText] at h
      split at h
      · exact absurd h (by simp)
      · split at h <;>
          · simp only [Except.ok.injEq] at h
            subst h
            exact ⟨rfl, rfl⟩

theorem editPriority_fields (priority : Option Priority)
    (st : Task × List String) :
    (editPriority priority st).1.recurrence = st.1.recurrence ∧
    (editPriority priority st).1.due_date = st.1.due_date := by
  cases priority with
  | none => exact ⟨rfl, rfl⟩
  | some p =>
      simp only [editPriority]
      split
      · exact ⟨rfl, rfl⟩
      · exact ⟨rfl, rfl⟩

theorem editProject_fields {project : Option String} {clearProject : Bool}
    {st st' : Task × List String}
    (h : editProject project clearProject st = .ok st') :
    st'.1.recurrence = st.1.recurrence ∧ st'.1.due_date = st.1.due_date := by
  unfold editProject at h
  split at h
  · split at h <;>
      · simp only [Except.ok.injEq] at h
        subst h
        exact ⟨rfl, rfl⟩
  · split at h
    · simp only [Except.ok.injEq] at h
      subst h
      exact ⟨rfl, rfl⟩
    · split at h
      · exact absurd h (by simp)
      · split at h <;>
          · simp only [Except.ok.injEq] at h
            subst h
            exact ⟨rfl, rfl⟩

theorem editRemoveTags_fields {id : Nat} {removeTag : List String}
    {st st' : Task × List String}
    (h : editRemoveTags id removeTag st = .ok st') :
    st'.1.recurrence = st.1.recurrence ∧ st'.1.due_date = st.1.due_date := by
  unfold editRemoveTags at h
  split at h
  · dsimp only at h
    split at h
    · simp only [Except.ok.injEq] at h
      subst h
      exact ⟨rfl, rfl⟩
    · split at h
      · exact absurd h (by simp)
      · simp only [Except.ok.injEq] at h
        subst h
        exact ⟨rfl, rfl⟩
  · simp only [Except.ok.injEq] at h
    subst h
    exact ⟨rfl, rfl⟩

theorem editAddTags_fields {addTag : List String}
    {st st' : Task × List String}
    (h : editAddTags addTag st = .ok st') :
    st'.1.recurrence = st.1.recurrence ∧ st'.1.due_date = st.1.due_date := by
  unfold editAddTags at h
  split at h
  · split at h
    · exact absurd h (by simp)
    · split at h
      split at h <;>
        · simp only [Except.ok.injEq] at h
          subst h
          exact ⟨rfl, rfl⟩
  · simp only [Except.ok.injEq] at h
    subst h
    exact ⟨rfl, rfl⟩

theorem editTags_fields {id : Nat} {addTag removeTag : List String}
    {clearTags : Bool} {st st' : Task × List String}
    (h : editTags id addTag removeTag clearTags st = .ok st') :
    st'.1.recurrence = st.1.recurrence ∧ st'.1.due_date = st.1.due_date := by
  unfold editTags at h
  split at h
  · split at h <;>
      · simp only [Except.ok.injEq] at h
        subst h
        exact ⟨rfl, rfl⟩
  · split at h
    · exact absurd h (by simp)
    · rename_i st1 heq
      obtain ⟨h1, h2⟩ := editAddTags_fields h
      obtain ⟨h3, h4⟩ := editRemoveTags_fields heq
      exact ⟨h1.trans h3, h2.trans h4⟩

theorem editDue_fields (due : Option Date) (clearDue : Bool)
    (st : Task × List String) :
    (editDue due clearDue st).1.recurrence = st.1.recurrence ∧
    ((editDue due clearDue st).1.due_date = none →
      clearDue = true ∨ st.1.due_date = none) := by
  unfold editDue
  split
  · rename_i hclear
    split
    · exact ⟨rfl, fun _ => .inl (by simpa using hclear)⟩
    · exact ⟨rfl, fun h => .inr h⟩
  · split
    · exact ⟨rfl, fun h => .inr h⟩
    · split
      · exact ⟨rfl, fun h => absurd h (by simp)⟩
      · exact ⟨rfl, fun h => .inr h⟩

theorem editDeps_fields (addDep removeDep : List Nat) (clearDeps : Bool)
    (st : Task × List String) :
    (editDeps addDep removeDep clearDeps st).1.recurrence =
      st.1.recurrence ∧
    (editDeps addDep removeDep clearDeps st).1.due_date =
      st.1.due_date := by
  unfold editDeps
  split
  · split
    · exact ⟨rfl, rfl⟩
    · exact ⟨rfl, rfl⟩
  · dsimp only
    split
    · split
      · exact ⟨rfl, rfl⟩
      · exact ⟨rfl, rfl⟩
    · split
      · exact ⟨rfl, rfl⟩
      · exact ⟨rfl, rfl⟩

theorem createNextRecurrence_some {t : Task} {p f : Nat} {today : Date}
    {nt : Task} (h : t.createNextRecurrence p f today = some nt) :
    nt.recurrence.isSome = true ∧ nt.due_date.isSome = true := by
  unfold Task.createNextRecurrence at h
  split at h
  · exact absurd h (by simp)
  · split at h
    · exact absurd h (by simp)
    · simp only [Option.some.injEq] at h
      subst h
      simp [Task.new]

/-- C5 fails on the code: editing the daily-recurring fixture task with
`clear_due` succeeds and leaves `recurrence` set while `due_date` is
cleared, breaking the invariant. -/
theorem edit_clear_due_violates_recurrence_invariant :
    editExecute [exTaskR] 1 none none [] [] none false none true false
      [] [] false = .ok [{ exTaskR with due_date := none }] ∧
    ({ exTaskR with due_date := none } : Task).recurrence.isSome = true ∧
    ({ exTaskR with due_date := none } : Task).due_date = none := by
  decide

/-- C5 (amended): Add, setting recurrence, Done, Undone and Remove preserve
the invariant that a task with `recurrence` set has a `due_date`; Edit
preserves it except in the refuted case — editing with `clear_due` a task
whose recurrence is set. -/
theorem core_ops_preserve_recurrence_invariant :
    (∀ tasks text priority tags project due recurrence dependsOn today
        freshUuid L, RecDueInv tasks →
      addExecute tasks text priority tags project due recurrence dependsOn
        today freshUuid = .ok L → RecDueInv L) ∧
    (∀ tasks id pattern L, RecDueInv tasks →
      recurExecute tasks id pattern = .ok L → RecDueInv L) ∧
    (∀ tasks id today freshUuid L, RecDueInv tasks →
      doneExecute tasks id today freshUuid = .ok L → RecDueInv L) ∧
    (∀ tasks id L, RecDueInv tasks →
      undoneExecute tasks id = .ok L → RecDueInv L) ∧
    (∀ tasks id L, RecDueInv tasks →
      removeExecute tasks id = .ok L → RecDueInv L) ∧
    (∀ tasks id text priority addTag removeTag project clearProject due
        clearDue clearTags addDep removeDep clearDeps L, RecDueInv tasks →
      ¬(clearDue = true ∧
        (tasks.getD (id - 1) defaultTask).recurrence.isSome = true) →
      editExecute tasks id text priority addTag removeTag project
        clearProject due clearDue clearTags addDep removeDep clearDeps =
        .ok L → RecDueInv L) := by
  refine ⟨?_, ?_, ?_, ?_, ?_, ?_⟩
  · -- Add
    intro tasks text priority tags project due recurrence dependsOn today
      freshUuid L hinv hok
    unfold addExecute at hok
    dsimp only at hok
    obtain ⟨_, _h1, hok⟩ := except_bind_ok hok
    obtain ⟨_, _h2, hok⟩ := except_bind_ok hok
    obtain ⟨_, _h3, hok⟩ := except_bind_ok hok
    obtain ⟨_, _h4, hok⟩ := except_bind_ok hok
    obtain ⟨_, h5, hok⟩ := except_bind_ok hok
    obtain ⟨_, _h6, hok⟩ := except_bind_ok hok
    obtain ⟨us, _h7, hok⟩ := except_bind_ok hok
    simp only [pure, Except.pure, Except.ok.injEq] at hok
    subst hok
    intro t ht
    rcases List.mem_append.mp ht with ht | ht
    · exact hinv t ht
    · have ht' : t = { Task.new freshUuid text priority
          (normalizeTags tags (collectExistingTags tasks)).1 project due
          recurrence today with depends_on := us } := by
        simpa using ht
      subst ht'
      unfold validateRecurrence at h5
      split at h5
      · exact absurd h5 (by simp)
      · rename_i hcond
        simp only [Task.new]
        intro hrec
        rw [Option.isSome_iff_ne_none]
        intro hdue
        exact hcond ⟨by simpa using hrec, by simp [hdue]⟩
  · -- recur
    intro tasks id pattern L hinv hok
    unfold recurExecute at hok
    split at hok
    · exact absurd hok (by simp)
    · rename_i hval
      dsimp only at hok
      split at hok
      · exact absurd hok (by simp)
      · rename_i hdue
        simp only [Except.ok.injEq] at hok
        subst hok
        intro t ht
        rcases List.mem_or_eq_of_mem_set ht with ht | ht
        · exact hinv t ht
        · subst ht
          intro _
          have hd : (tasks.getD (id - 1) defaultTask).due_date.isSome =
              true := by
            rw [Option.isSome_iff_ne_none]
            intro hn
            exact hdue (by rw [hn]; rfl)
          by_cases hp : (tasks.getD (id - 1) defaultTask).recurrence ≠
              some pattern
          · rw [if_pos hp]
            exact hd
          · rw [if_neg hp]
            exact hd
  · -- done
    intro tasks id today freshUuid L hinv hok
    have horig : ∀ t ∈ tasks.set (id - 1)
        ((tasks.getD (id - 1) defaultTask).markDone today),
        t.recurrence.isSome = true → t.due_date.isSome = true := by
      intro t ht
      rcases List.mem_or_eq_of_mem_set ht with ht | ht
      · exact hinv t ht
      · subst ht
        intro hrec
        by_cases hmem : id - 1 < tasks.length
        · exact hinv (tasks.getD (id - 1) defaultTask) (getD_mem hmem) hrec
        · exfalso
          rw [List.getD_eq_getElem?_getD,
            List.getElem?_eq_none (by omega)] at hrec
          simp [defaultTask, Task.markDone] at hrec
    unfold doneExecute at hok
    split at hok
    · exact absurd hok (by simp)
    · dsimp only at hok
      split at hok
      · exact absurd hok (by simp)
      · split at hok
        · exact absurd hok (by simp)
        · split at hok
          · rename_i nt hnr
            split at hok
            · simp only [Except.ok.injEq] at hok
              subst hok
              exact horig
            · simp only [Except.ok.injEq] at hok
              subst hok
              intro t ht
              rcases List.mem_append.mp ht with ht | ht
              · exact horig t ht
              · have ht' : t = nt := by simpa using ht
                subst ht'
                intro _
                exact (createNextRecurrence_some hnr).2
          · simp only [Except.ok.injEq] at hok
            subst hok
            exact horig
  · -- undone
    intro tasks id L hinv hok
    unfold undoneExecute at hok
    split at hok
    · exact absurd hok (by simp)
    · dsimp only at hok
      split at hok
      · exact absurd hok (by simp)
      · simp only [Except.ok.injEq] at hok
        subst hok
        intro t ht
        rcases List.mem_or_eq_of_mem_set ht with ht | ht
        · exact hinv t ht
        · subst ht
          intro hrec
          by_cases hmem : id - 1 < tasks.length
          · exact hinv (tasks.getD (id - 1) defaultTask) (getD_mem hmem) hrec
          · exfalso
            rw [List.getD_eq_getElem?_getD,
              List.getElem?_eq_none (by omega)] at hrec
            simp [defaultTask, Task.markUndone] at hrec
  · -- remove
    intro tasks id L hinv hok
    unfold removeExecute at hok
    split at hok
    · exact absurd hok (by simp)
    · simp only [Except.ok.injEq] at hok
      subst hok
      intro t ht
      rw [List.eraseIdx_eq_take_drop_succ] at ht
      rcases List.mem_append.mp ht with ht | ht
      · exact hinv t (List.take_subset _ _ ht)
      · exact hinv t (List.drop_subset _ _ ht)
  · -- edit
    intro tasks id text priority addTag removeTag project clearProject due
      clearDue clearTags addDep removeDep clearDeps L hinv hguard hok
    unfold editExecute at hok
    split at hok
    · exact absurd hok (by simp)
    · rename_i hval
      split at hok
      · exact absurd hok (by simp)
      · split at hok
        · exact absurd hok (by simp)
        · split at hok
          · exact absurd hok (by simp)
          · rename_i st1 htext
            split at hok
            · exact absurd hok (by simp)
            · rename_i st3 hproj
              split at hok
              · exact absurd hok (by simp)
              · rename_i st4 htags
                dsimp only at hok
                split at hok
                · simp only [Except.ok.injEq] at hok
                  subst hok
                  exact hinv
                · simp only [Except.ok.injEq] at hok
                  subst hok
                  have hid : 1 ≤ id ∧ id ≤ tasks.length := by
                    cases hu : validateTaskId id tasks.length with
                    | error e => rw [hu] at hval; exact absurd hval (by simp)
                    | ok u =>
                        cases u
                        exact validateTaskId_ok_iff.mp hu
                  intro t ht
                  rcases List.mem_or_eq_of_mem_set ht with ht | ht
                  · exact hinv t ht
                  · subst ht
                    intro hrec
                    obtain ⟨hdr, hdd⟩ := editDeps_fields addDep removeDep
                      clearDeps (editDue due clearDue st4)
                    obtain ⟨her, hed⟩ := editDue_fields due clearDue st4
                    obtain ⟨htr, htd⟩ := editTags_fields htags
                    obtain ⟨hpr, hpd⟩ := editProject_fields hproj
                    obtain ⟨hprr, hprd⟩ := editPriority_fields priority st1
                    obtain ⟨hxr, hxd⟩ := editText_fields htext
                    have hrec0 : (tasks.getD (id - 1)
                        defaultTask).recurrence.isSome = true := by
                      rw [hdr, her, htr, hpr, hprr, hxr] at hrec
                      exact hrec
                    have hcd : clearDue = false := by
                      cases hc : clearDue
                      · rfl
                      · exact absurd ⟨rfl, hrec0⟩ (hc ▸ hguard)
                    rw [Option.isSome_iff_ne_none]
                    intro hnone
                    rw [hdd] at hnone
                    rcases hed hnone with hconc | hconc
                    · rw [hcd] at hconc
                      exact absurd hconc (by simp)
                    · rw [htd, hpd, hprd, hxd] at hconc
                      have := hinv _ (getD_mem (by omega)) hrec0
                      rw [Option.isSome_iff_ne_none] at this
                      exact this hconc

/-- Witness for `core_ops_preserve_recurrence_invariant`: each operation
run on a fixture list, with the resulting list satisfying the invariant. -/
theorem core_ops_preserve_recurrence_invariant_witness :
    RecDueInv [Task.new 1 "t" .medium [] none none none ⟨2026, 1, 1⟩] ∧
    RecDueInv [exTaskR] ∧
    RecDueInv [exTaskA.markDone ⟨2026, 3, 1⟩, exTaskB] ∧
    RecDueInv [exTaskA, exTaskB.markUndone] ∧
    RecDueInv [exTaskB] ∧
    RecDueInv [{ exTaskR with due_date := some ⟨2026, 5, 1⟩ }] := by
  refine ⟨?_, ?_, ?_, ?_, ?_, ?_⟩
  · exact core_ops_preserve_recurrence_invariant.1 [] "t" .medium [] none
      none none [] ⟨2026, 1, 1⟩ 1 _ (by decide) (by decide)
  · exact core_ops_preserve_recurrence_invariant.2.1 [exTaskR] 1 .daily _
      (by decide) (by decide)
  · exact core_ops_preserve_recurrence_invariant.2.2.1 exTasksAB 1
      ⟨2026, 3, 1⟩ 50 _ (by decide) (by decide)
  · exact core_ops_preserve_recurrence_invariant.2.2.2.1 exTasksAB 2 _
      (by decide) (by decide)
  · exact core_ops_preserve_recurrence_invariant.2.2.2.2.1 exTasksAB 1 _
      (by decide) (by decide)
  · exact core_ops_preserve_recurrence_invariant.2.2.2.2.2 [exTaskR] 1 none
      none [] [] none false (some ⟨2026, 5, 1⟩) false false [] [] false _
      (by decide) (by decide) (by decide)

/-! ## C8: idempotent recurrence spawning across done/undone/done -/

theorem validateTaskId_ok_bounds {id max : Nat} {u : Unit}
    (h : validateTaskId id max = .ok u) : 1 ≤ id ∧ id ≤ max := by
  cases u
  exact validateTaskId_ok_iff.mp h

theorem getD_set_self {l : List Task} {i : Nat} (h : i < l.length)
    (x : Task) : (l.set i x).getD i defaultTask = x := by
  rw [List.getD_eq_getElem?_getD, List.getElem?_set_self h]
  rfl

theorem getD_set_ne {l : List Task} {i j : Nat} (h : i ≠ j) (x : Task) :
    (l.set i x).getD j defaultTask = l.getD j defaultTask := by
  rw [List.getD_eq_getElem?_getD, List.getElem?_set_ne h,
    ← List.getD_eq_getElem?_getD]

theorem getD_append_left {l m : List Task} {i : Nat} (h : i < l.length) :
    (l ++ m).getD i defaultTask = l.getD i defaultTask := by
  rw [List.getD_eq_getElem?_getD, List.getElem?_append_left h,
    ← List.getD_eq_getElem?_getD]

theorem createNextRecurrence_none_iff {t : Task} {p f : Nat}
    {today : Date} :
    t.createNextRecurrence p f today = none ↔
      t.recurrence = none ∨ t.due_date = none := by
  unfold Task.createNextRecurrence
  cases hr : t.recurrence with
  | none => simp
  | some r =>
      cases hd : t.due_date with
      | none => simp
      | some d => simp

theorem createNextRecurrence_some_eq {t : Task} {p f : Nat} {today : Date}
    {nt : Task} (h : t.createNextRecurrence p f today = some nt) :
    ∃ r d, t.recurrence = some r ∧ t.due_date = some d ∧
      nt = { Task.new f t.text t.priority t.tags t.project
        (some (r.nextDate d)) (some r) today with parent_id := some p } := by
  unfold Task.createNextRecurrence at h
  split at h
  · exact absurd h (by simp)
  · rename_i r hr
    split at h
    · exact absurd h (by simp)
    · rename_i d hd
      simp only [Option.some.injEq] at h
      exact ⟨r, d, hr, hd, h.symm⟩

theorem doneExecute_ok_shape {tasks : List Task} {id : Nat} {today : Date}
    {f : Nat} {L : List Task} (h : doneExecute tasks id today f = .ok L) :
    (1 ≤ id ∧ id ≤ tasks.length) ∧
    (tasks.getD (id - 1) defaultTask).completed = false ∧
    (∃ t1 l1, t1 = (tasks.getD (id - 1) defaultTask).markDone today ∧
      l1 = tasks.set (id - 1) t1 ∧
      ((t1.createNextRecurrence t1.uuid f today = none ∧ L = l1) ∨
       ∃ nt, t1.createNextRecurrence t1.uuid f today = some nt ∧
         ((l1.any (fun x => !x.completed &&
            x.due_date == some (nt.due_date.getD defaultDate) &&
            (x.parent_id == some t1.uuid || x.text == nt.text)) = true ∧
           L = l1) ∨
          (l1.any (fun x => !x.completed &&
            x.due_date == some (nt.due_date.getD defaultDate) &&
            (x.parent_id == some t1.uuid || x.text == nt.text)) = false ∧
           L = l1 ++ [nt])))) := by
  unfold doneExecute at h
  split at h
  · exact absurd h (by simp)
  · rename_i u hval
    refine ⟨validateTaskId_ok_bounds hval, ?_⟩
    dsimp only at h
    split at h
    · exact absurd h (by simp)
    · rename_i hcomp
      refine ⟨by cases hcv : (tasks.getD (id - 1) defaultTask).completed
        with
        | false => rfl
        | true => exact absurd hcv hcomp, ?_⟩
      split at h
      · exact absurd h (by simp)
      · split at h
        · rename_i nt hnr
          split at h
          · rename_i hex
            simp only [Except.ok.injEq] at h
            exact ⟨_, _, rfl, rfl, .inr ⟨nt, hnr, .inl ⟨hex, h.symm⟩⟩⟩
          · rename_i hex
            simp only [Except.ok.injEq] at h
            refine ⟨_, _, rfl, rfl, .inr ⟨nt, hnr, .inr ⟨?_, h.symm⟩⟩⟩
            cases hav : (tasks.set (id - 1) ((tasks.getD (id - 1)
                defaultTask).markDone today)).any (fun x => !x.completed &&
                  x.due_date == some (nt.due_date.getD defaultDate) &&
                  (x.parent_id == some ((tasks.getD (id - 1)
                    defaultTask).markDone today).uuid ||
                    x.text == nt.text)) with
            | false => rfl
            | true => exact absurd hav hex
        · rename_i hnr
          simp only [Except.ok.injEq] at h
          exact ⟨_, _, rfl, rfl, .inl ⟨hnr, h.symm⟩⟩

theorem undoneExecute_ok_shape {tasks : List Task} {id : Nat}
    {L : List Task} (h : undoneExecute tasks id = .ok L) :
    (1 ≤ id ∧ id ≤ tasks.length) ∧
    (tasks.getD (id - 1) defaultTask).completed = true ∧
    L = tasks.set (id - 1)
      ((tasks.getD (id - 1) defaultTask).markUndone) := by
  unfold undoneExecute at h
  split at h
  · exact absurd h (by simp)
  · rename_i u hval
    refine ⟨validateTaskId_ok_bounds hval, ?_⟩
    dsimp only at h
    split at h
    · exact absurd h (by simp)
    · rename_i hcomp
      simp only [Except.ok.injEq] at h
      refine ⟨?_, h.symm⟩
      cases hcv : (tasks.getD (id - 1) defaultTask).completed with
      | true => rfl
      | false =>
          exact absurd (by rw [hcv]; rfl) hcomp

/-- C8: when completing, un-completing and re-completing the same task all
succeed, the dedup rule of `done` (skip inserting the spawned occurrence
when a pending task with the same due date and the same parent or text
already exists) guarantees the second completion inserts nothing: the task
list after the second completion has the same length as after the first. -/
theorem recurrence_completion_idempotent (tasks : List Task) (id : Nat)
    (today1 today2 : Date) (f1 f2 : Nat) (L1 L2 L3 : List Task)
    (h1 : doneExecute tasks id today1 f1 = .ok L1)
    (h2 : undoneExecute L1 id = .ok L2)
    (h3 : doneExecute L2 id today2 f2 = .ok L3) :
    L3.length = L1.length := by
  obtain ⟨hid1, hc1, t1, l1, ht1, hl1, hcase1⟩ := doneExecute_ok_shape h1
  obtain ⟨hid2, hc2, hL2⟩ := undoneExecute_ok_shape h2
  obtain ⟨hid3, hc3, t3, l3, ht3, hl3, hcase3⟩ := doneExecute_ok_shape h3
  have hidx : id - 1 < tasks.length := by omega
  have hl1len : l1.length = tasks.length := by
    rw [hl1, List.length_set]
  have hidx1 : id - 1 < l1.length := by omega
  -- the addressed slot of L1 holds the marked-done task in every branch
  have hget1 : L1.getD (id - 1) defaultTask = t1 := by
    rcases hcase1 with ⟨_, hL1⟩ | ⟨nt, _, ⟨_, hL1⟩ | ⟨_, hL1⟩⟩
    · rw [hL1, hl1, ht1]
      exact getD_set_self hidx _
    · rw [hL1, hl1, ht1]
      exact getD_set_self hidx _
    · rw [hL1, hl1, ht1, getD_append_left (by rw [List.length_set]; omega)]
      exact getD_set_self hidx _
  have hL2' : L2 = L1.set (id - 1) (t1.markUndone) := by
    rw [hL2, hget1]
  have hL1len : id - 1 < L1.length := by
    rcases hcase1 with ⟨_, hL1⟩ | ⟨nt, _, ⟨_, hL1⟩ | ⟨_, hL1⟩⟩
    · rw [hL1]
      omega
    · rw [hL1]
      omega
    · rw [hL1, List.length_append]
      omega
  have hget2 : L2.getD (id - 1) defaultTask = t1.markUndone := by
    rw [hL2']
    exact getD_set_self hL1len _
  have ht3' : t3 = (t1.markUndone).markDone today2 := by
    rw [ht3, hget2]
  have hL2len : L2.length = L1.length := by
    rw [hL2', List.length_set]
  have hl3eq : l3 = L2.set (id - 1) t3 := hl3
  have hl3len : l3.length = L1.length := by
    rw [hl3eq, List.length_set]
    exact hL2len
  -- recurrence-relevant fields of the re-completed task agree with t1
  have hrec3 : t3.recurrence = t1.recurrence := by rw [ht3']; rfl
  have hdue3 : t3.due_date = t1.due_date := by rw [ht3']; rfl
  have huuid3 : t3.uuid = t1.uuid := by rw [ht3']; rfl
  have htext3 : t3.text = t1.text := by rw [ht3']; rfl
  rcases hcase3 with ⟨_, hL3⟩ | ⟨nt2, hnr2, ⟨_, hL3⟩ | ⟨hex2, hL3⟩⟩
  · rw [hL3]
    exact hl3len
  · rw [hL3]
    exact hl3len
  · -- the push branch of the second completion is impossible
    exfalso
    rcases hcase1 with ⟨hnone1, hL1⟩ | ⟨nt1, hnr1, hsub1⟩
    · -- the task is not recurring, so the second spawn cannot exist
      rw [createNextRecurrence_none_iff] at hnone1
      have : t3.createNextRecurrence t3.uuid f2 today2 = none := by
        rw [createNextRecurrence_none_iff]
        rcases hnone1 with h | h
        · exact .inl (by rw [hrec3, h])
        · exact .inr (by rw [hdue3, h])
      rw [this] at hnr2
      exact absurd hnr2 (by simp)
    · obtain ⟨r1, d1, hr1, hd1, hnt1⟩ := createNextRecurrence_some_eq hnr1
      obtain ⟨r2, d2, hr2, hd2, hnt2⟩ := createNextRecurrence_some_eq hnr2
      have hrr : r2 = r1 := by
        have : some r1 = some r2 := by rw [← hr1, ← hrec3, hr2]
        exact (Option.some.injEq _ _ ▸ this).symm
      have hdd : d2 = d1 := by
        have : some d1 = some d2 := by rw [← hd1, ← hdue3, hd2]
        exact (Option.some.injEq _ _ ▸ this).symm
      have e1 : nt2.due_date.getD defaultDate =
          nt1.due_date.getD defaultDate := by
        rw [hnt1, hnt2, hrr, hdd]
        rfl
      have e3 : nt2.text = nt1.text := by
        rw [hnt1, hnt2]
        show t3.text = t1.text
        exact htext3
      rcases hsub1 with ⟨hex1, hL1⟩ | ⟨hnx1, hL1⟩
      · -- the first completion already found a matching pending task, and
        -- that task survives untouched into the second dedup check
        rw [List.any_eq_true] at hex1
        obtain ⟨x, hx, hpx⟩ := hex1
        obtain ⟨j, hj, hxj⟩ := List.getElem_of_mem hx
        have hxj' : l1[j]? = some x := by
          rw [List.getElem?_eq_getElem hj, hxj]
        have hjne : id - 1 ≠ j := by
          intro hji
          have h11 : l1[j]? = some t1 := by
            rw [← hji, hl1, List.getElem?_set_self hidx]
          have hxeq : x = t1 := by
            have h12 := h11.symm.trans hxj'
            simpa using h12.symm
          rw [hxeq, ht1] at hpx
          simp [Task.markDone] at hpx
        have hmem3 : l3[j]? = some x := by
          rw [hl3eq, List.getElem?_set_ne hjne, hL2',
            List.getElem?_set_ne hjne, hL1, hxj']
        have hxmem : x ∈ l3 := List.getElem?_mem hmem3
        have hany : l3.any (fun x => !x.completed &&
            x.due_date == some (nt2.due_date.getD defaultDate) &&
            (x.parent_id == some t3.uuid || x.text == nt2.text)) = true := by
          refine List.any_eq_true.mpr ⟨x, hxmem, ?_⟩
          dsimp only
          rw [e1, huuid3, e3]
          exact hpx
        rw [hany] at hex2
        exact absurd hex2 (by simp)
      · -- the first completion pushed the occurrence, which is still a
        -- pending task with the same due date and parent
        have hne : id - 1 ≠ l1.length := by omega
        have hmem3 : l3[l1.length]? = some nt1 := by
          rw [hl3eq, List.getElem?_set_ne hne, hL2',
            List.getElem?_set_ne hne, hL1, List.getElem?_concat_length]
        have hxmem : nt1 ∈ l3 := List.getElem?_mem hmem3
        have hany : l3.any (fun x => !x.completed &&
            x.due_date == some (nt2.due_date.getD defaultDate) &&
            (x.parent_id == some t3.uuid || x.text == nt2.text)) = true := by
          refine List.any_eq_true.mpr ⟨nt1, hxmem, ?_⟩
          dsimp only
          rw [e1, huuid3, e3, hnt1]
          simp [Task.new]
        rw [hany] at hex2
        exact absurd hex2 (by simp)

/-- Witness for `recurrence_completion_idempotent`: a concrete
done/undone/done run on the daily-recurring fixture task; the second
completion inserts no second occurrence and the lengths agree. -/
theorem recurrence_completion_idempotent_witness :
    doneExecute [exTaskR] 1 ⟨2026, 2, 10⟩ 100 = .ok exL1 ∧
    undoneExecute exL1 1 = .ok exL2 ∧
    doneExecute exL2 1 ⟨2026, 2, 12⟩ 101 = .ok exL3 ∧
    exL3.length = exL1.length := by
  have hA : doneExecute [exTaskR] 1 ⟨2026, 2, 10⟩ 100 = .ok exL1 := by
    decide
  have hB : undoneExecute exL1 1 = .ok exL2 := by decide
  have hC : doneExecute exL2 1 ⟨2026, 2, 12⟩ 101 = .ok exL3 := by decide
  exact ⟨hA, hB, hC, recurrence_completion_idempotent [exTaskR] 1
    ⟨2026, 2, 10⟩ ⟨2026, 2, 12⟩ 100 101 exL1 exL2 exL3 hA hB hC⟩

/-! ## C3: the dependency-edge validation policy -/

theorem detectCycle_of_not_reaches {tasks : List Task} {a b : Nat}
    (h : ¬ Reaches tasks b a) : detectCycle tasks a b = .ok () := by
  by_cases hc : detectCycle tasks a b = .ok ()
  · exact hc
  · exact absurd ((detectCycle_err_iff tasks a b).mp hc) h

theorem detectCycle_of_reaches {tasks : List Task} {a b : Nat}
    (h : Reaches tasks b a) :
    detectCycle tasks a b = .error (cycleMsg tasks a b) := by
  have hne := (detectCycle_err_iff tasks a b).mpr h
  unfold detectCycle at hne ⊢
  cases hdfs : cycleDfs tasks a [] [b] with
  | true => rw [if_pos rfl]
  | false =>
      exfalso
      apply hne
      rw [hdfs]
      simp

theorem validateTaskId_err {id max : Nat} (h : ¬(1 ≤ id ∧ id ≤ max)) :
    validateTaskId id max = .error (.invalidTaskId id max) := by
  unfold validateTaskId
  rw [if_pos (by omega)]

theorem editValidateAddDeps_ok_iff (tasks : List Task) (id : Nat)
    (deps : List Nat) :
    editValidateAddDeps tasks id deps = .ok () ↔
      ∀ dep ∈ deps, ¬(dep = id) ∧ (1 ≤ dep ∧ dep ≤ tasks.length) ∧
        ¬ Reaches tasks dep id ∧
        dep ∉ (tasks.getD (id - 1) defaultTask).depends_on := by
  induction deps with
  | nil => simp [editValidateAddDeps]
  | cons d rest ih =>
      simp only [editValidateAddDeps]
      by_cases h1 : d = id
      · rw [if_pos h1]
        constructor
        · intro h
          exact absurd h (by simp)
        · intro hall
          exact absurd h1 (hall d (List.mem_cons_self _ _)).1
      · rw [if_neg h1]
        by_cases h2 : 1 ≤ d ∧ d ≤ tasks.length
        · rw [validateTaskId_ok_iff.mpr h2]
          dsimp only
          by_cases h3 : Reaches tasks d id
          · rw [detectCycle_of_reaches h3]
            dsimp only
            constructor
            · intro h
              exact absurd h (by simp)
            · intro hall
              exact absurd h3 (hall d (List.mem_cons_self _ _)).2.2.1
          · rw [detectCycle_of_not_reaches h3]
            dsimp only
            by_cases h4 : d ∈ (tasks.getD (id - 1) defaultTask).depends_on
            · rw [if_pos h4]
              constructor
              · intro h
                exact absurd h (by simp)
              · intro hall
                exact absurd h4 (hall d (List.mem_cons_self _ _)).2.2.2
            · rw [if_neg h4]
              rw [ih]
              constructor
              · intro hrest dep hdep
                rcases List.mem_cons.mp hdep with hd | hd
                · subst hd
                  exact ⟨h1, h2, h3, h4⟩
                · exact hrest dep hd
              · intro hall dep hdep
                exact hall dep (List.mem_cons_of_mem _ hdep)
        · rw [validateTaskId_err h2]
          dsimp only
          constructor
          · intro h
            exact absurd h (by simp)
          · intro hall
            exact absurd (hall d (List.mem_cons_self _ _)).2.1 h2

theorem addValidateDeps_ok_iff (newId len : Nat) (deps : List Nat) :
    addValidateDeps newId len deps = .ok () ↔
      ∀ dep ∈ deps, ¬(dep = newId) ∧ (1 ≤ dep ∧ dep ≤ len) := by
  induction deps with
  | nil => simp [addValidateDeps]
  | cons d rest ih =>
      simp only [addValidateDeps]
      by_cases h1 : d = newId
      · rw [if_pos h1]
        constructor
        · intro h
          exact absurd h (by simp)
        · intro hall
          exact absurd h1 (hall d (List.mem_cons_self _ _)).1
      · rw [if_neg h1]
        by_cases h2 : 1 ≤ d ∧ d ≤ len
        · rw [validateTaskId_ok_iff.mpr h2]
          dsimp only
          rw [ih]
          constructor
          · intro hrest dep hdep
            rcases List.mem_cons.mp hdep with hd | hd
            · subst hd
              exact ⟨h1, h2⟩
            · exact hrest dep hd
          · intro hall dep hdep
            exact hall dep (List.mem_cons_of_mem _ hdep)
        · rw [validateTaskId_err h2]
          dsimp only
          constructor
          · intro h
            exact absurd h (by simp)
          · intro hall
            exact absurd (hall d (List.mem_cons_self _ _)).2 h2

theorem not_reaches_fresh {tasks : List Task} {f : Nat}
    (hf : ∀ t ∈ tasks, f ∉ t.depends_on) {dep : Nat} (hdep : dep ≠ f) :
    ¬ Reaches tasks dep f := by
  have key : ∀ a b, ReachesF (succs tasks) a b → b = f → a ≠ f → False := by
    intro a b hr
    induction hr with
    | refl u =>
        intro hbf haf
        exact haf hbf
    | step u v w hv _ ih =>
        intro hbf haf
        apply ih hbf
        unfold succs at hv
        cases hfv : findTask tasks u with
        | none =>
            rw [hfv] at hv
            exact absurd hv (List.not_mem_nil v)
        | some t =>
            rw [hfv] at hv
            obtain ⟨ht, _⟩ := findTask_mem hfv
            intro hvf
            exact hf t ht (hvf ▸ hv)
  exact fun hr => key dep f hr rfl hdep

theorem resolveUuid_ok {dep : Nat} {tasks : List Task}
    (h : 1 ≤ dep ∧ dep ≤ tasks.length) :
    resolveUuid dep tasks =
      .ok ((tasks.getD (dep - 1) defaultTask).uuid) := by
  unfold resolveUuid
  rw [List.getElem?_eq_getElem (by omega : dep - 1 < tasks.length)]
  rw [List.getD_eq_getElem?_getD,
    List.getElem?_eq_getElem (by omega : dep - 1 < tasks.length)]
  rfl

theorem resolveUuids_ok {deps : List Nat} {tasks : List Task}
    (h : ∀ dep ∈ deps, 1 ≤ dep ∧ dep ≤ tasks.length) :
    deps.mapM (fun depId => resolveUuid depId tasks) =
      .ok (deps.map (fun d => (tasks.getD (d - 1) defaultTask).uuid)) := by
  induction deps with
  | nil => rfl
  | cons d rest ih =>
      rw [List.mapM_cons, resolveUuid_ok (h d (List.mem_cons_self _ _)),
        ih (fun dep hdep => h dep (List.mem_cons_of_mem _ hdep))]
      rfl

theorem editExecute_ok_validDeps {tasks : List Task} {id : Nat}
    {text : Option String} {priority : Option Priority}
    {addTag removeTag : List String} {project : Option String}
    {clearProject : Bool} {due : Option Date} {clearDue clearTags : Bool}
    {addDep removeDep : List Nat} {clearDeps : Bool} {l : List Task}
    (h : editExecute tasks id text priority addTag removeTag project
      clearProject due clearDue clearTags addDep removeDep clearDeps =
      .ok l) :
    editValidateAddDeps tasks id addDep = .ok () := by
  unfold editExecute at h
  split at h
  · exact absurd h (by simp)
  · split at h
    · exact absurd h (by simp)
    · rename_i u heq
      cases u
      exact heq

theorem addExecute_ok_validDeps {tasks : List Task} {text : String}
    {priority : Priority} {tags : List String} {project : Option String}
    {due : Option Date} {recurrence : Option Recurrence}
    {dependsOn : List Nat} {today : Date} {freshUuid : Nat} {l : List Task}
    (h : addExecute tasks text priority tags project due recurrence
      dependsOn today freshUuid = .ok l) :
    addValidateDeps (tasks.length + 1) tasks.length dependsOn = .ok () := by
  unfold addExecute at h
  dsimp only at h
  obtain ⟨_, _h1, h⟩ := except_bind_ok h
  obtain ⟨_, _h2, h⟩ := except_bind_ok h
  obtain ⟨_, _h3, h⟩ := except_bind_ok h
  obtain ⟨_, _h4, h⟩ := except_bind_ok h
  obtain ⟨_, _h5, h⟩ := except_bind_ok h
  obtain ⟨u, h6, _⟩ := except_bind_ok h
  cases u
  exact h6

theorem addExecute_ok_of_valid {tasks : List Task} {text : String}
    {priority : Priority} {tags : List String} {project : Option String}
    {due : Option Date} {recurrence : Option Recurrence}
    {dependsOn : List Nat} {today : Date} {freshUuid : Nat}
    (htext : validateTaskText text = .ok ())
    (htags : validateTags tags = .ok ())
    (hproj : validateProjectOpt project = .ok ())
    (hdue : validateDueDate due false today = .ok ())
    (hrec : validateRecurrence recurrence due = .ok ())
    (hdeps : addValidateDeps (tasks.length + 1) tasks.length dependsOn =
      .ok ()) :
    addExecute tasks text priority tags project due recurrence dependsOn
      today freshUuid =
      .ok (tasks ++
        [{ Task.new freshUuid text priority
            (normalizeTags tags (collectExistingTags tasks)).1 project due
            recurrence today with
          depends_on :=
            dependsOn.map
              (fun d => (tasks.getD (d - 1) defaultTask).uuid) }]) := by
  have hrange : ∀ dep ∈ dependsOn, 1 ≤ dep ∧ dep ≤ tasks.length :=
    fun dep hdep =>
      ((addValidateDeps_ok_iff _ _ _).mp hdeps dep hdep).2
  have hmap := resolveUuids_ok hrange
  unfold addExecute
  dsimp only
  rw [htext, htags, hproj, hdue, hrec, hdeps, hmap]
  rfl

theorem editExecute_addDep_effect {tasks : List Task} {id : Nat}
    (hid : 1 ≤ id ∧ id ≤ tasks.length) {addDep : List Nat}
    (hne : addDep ≠ [])
    (hval : editValidateAddDeps tasks id addDep = .ok ()) :
    editExecute tasks id none none [] [] none false none false false
      addDep [] false =
      .ok (tasks.set (id - 1)
        { tasks.getD (id - 1) defaultTask with
          depends_on :=
            (tasks.getD (id - 1) defaultTask).depends_on ++ addDep }) := by
  obtain ⟨d, ds, rfl⟩ := List.exists_cons_of_ne_nil hne
  unfold editExecute
  rw [validateTaskId_ok_iff.mpr hid, hval]
  simp only [editValidateRemoveDeps, editText, editPriority, editProject,
    editTags, editRemoveTags, editAddTags, editDue, editDeps,
    List.isEmpty_cons, List.isEmpty_nil, Bool.not_true, Bool.not_false,
    not_true, not_false_iff, if_true, if_false, ite_true, ite_false]
  rfl

/-- C3: the dependency-edge validation policy shared by Add and Edit.
For Edit, a batch of requested dependency edges validates exactly when
every candidate avoids the four rejection conditions (self-dependency,
non-existent target, cycle creation, duplicate edge); a successful edit
implies the whole batch was valid (so one invalid edge leaves the list
untouched, the handler erroring before any write); and a valid batch is
written in full in one step.  For Add, the batch validates exactly when
every candidate avoids self-dependency and refers to an existing task; a
successful add implies the batch was valid; a valid batch is written in
full onto the single appended task; and the remaining two rejection
conditions are vacuous for Add: the new task starts with no dependency
edges (no duplicate is possible) and a fresh identifier is reachable from
no other task (no cycle is possible). -/
theorem dependency_edge_policy (tasks : List Task) (id : Nat)
    (hid : 1 ≤ id ∧ id ≤ tasks.length) (addDep : List Nat)
    (hne : addDep ≠ []) (text : String) (priority : Priority)
    (tags : List String) (project : Option String) (due : Option Date)
    (recurrence : Option Recurrence) (deps : List Nat) (today : Date)
    (freshUuid : Nat)
    (htext : validateTaskText text = .ok ())
    (htags : validateTags tags = .ok ())
    (hproj : validateProjectOpt project = .ok ())
    (hdue : validateDueDate due false today = .ok ())
    (hrec : validateRecurrence recurrence due = .ok ()) :
    (editValidateAddDeps tasks id addDep = .ok () ↔
      ∀ dep ∈ addDep, ¬(dep = id) ∧ (1 ≤ dep ∧ dep ≤ tasks.length) ∧
        ¬ Reaches tasks dep id ∧
        dep ∉ (tasks.getD (id - 1) defaultTask).depends_on) ∧
    (∀ l, editExecute tasks id none none [] [] none false none false false
        addDep [] false = .ok l →
      editValidateAddDeps tasks id addDep = .ok ()) ∧
    (editValidateAddDeps tasks id addDep = .ok () →
      editExecute tasks id none none [] [] none false none false false
        addDep [] false =
        .ok (tasks.set (id - 1)
          { tasks.getD (id - 1) defaultTask with
            depends_on :=
              (tasks.getD (id - 1) defaultTask).depends_on ++ addDep })) ∧
    (addValidateDeps (tasks.length + 1) tasks.length deps = .ok () ↔
      ∀ dep ∈ deps, ¬(dep = tasks.length + 1) ∧
        (1 ≤ dep ∧ dep ≤ tasks.length)) ∧
    (∀ l, addExecute tasks text priority tags project due recurrence deps
        today freshUuid = .ok l →
      addValidateDeps (tasks.length + 1) tasks.length deps = .ok ()) ∧
    (addValidateDeps (tasks.length + 1) tasks.length deps = .ok () →
      addExecute tasks text priority tags project due recurrence deps today
        freshUuid =
        .ok (tasks ++
          [{ Task.new freshUuid text priority
              (normalizeTags tags (collectExistingTags tasks)).1 project
              due recurrence today with
            depends_on :=
              deps.map
                (fun d => (tasks.getD (d - 1) defaultTask).uuid) }])) ∧
    ((Task.new freshUuid text priority tags project due recurrence
        today).depends_on = [] ∧
      ((∀ t ∈ tasks, freshUuid ∉ t.depends_on) →
        ∀ u, u ≠ freshUuid → ¬ Reaches tasks u freshUuid)) := by
  refine ⟨editValidateAddDeps_ok_iff tasks id addDep, ?_, ?_,
    addValidateDeps_ok_iff (tasks.length + 1) tasks.length deps, ?_, ?_,
    rfl, ?_⟩
  · intro l h
    exact editExecute_ok_validDeps h
  · intro hval
    exact editExecute_addDep_effect hid hne hval
  · intro l h
    exact addExecute_ok_validDeps h
  · intro hval
    exact addExecute_ok_of_valid htext htags hproj hdue hrec hval
  · intro hf u hu
    exact not_reaches_fresh hf hu

/-- Closed witness for the C3 theorem: the two-task fixture list, editing
task 1 to depend on task 2, and adding a task depending on task 1. -/
theorem dependency_edge_policy_witness :
    (1 ≤ 1 ∧ 1 ≤ exTasksAB.length) ∧
    ((editValidateAddDeps exTasksAB 1 [2] = .ok () ↔
      ∀ dep ∈ [2], ¬(dep = 1) ∧ (1 ≤ dep ∧ dep ≤ exTasksAB.length) ∧
        ¬ Reaches exTasksAB dep 1 ∧
        dep ∉ (exTasksAB.getD 0 defaultTask).depends_on) ∧
    (∀ l, editExecute exTasksAB 1 none none [] [] none false none false
        false [2] [] false = .ok l →
      editValidateAddDeps exTasksAB 1 [2] = .ok ()) ∧
    (editValidateAddDeps exTasksAB 1 [2] = .ok () →
      editExecute exTasksAB 1 none none [] [] none false none false false
        [2] [] false =
        .ok (exTasksAB.set 0
          { exTasksAB.getD 0 defaultTask with
            depends_on :=
              (exTasksAB.getD 0 defaultTask).depends_on ++ [2] })) ∧
    (addValidateDeps (exTasksAB.length + 1) exTasksAB.length [1] = .ok () ↔
      ∀ dep ∈ [1], ¬(dep = exTasksAB.length + 1) ∧
        (1 ≤ dep ∧ dep ≤ exTasksAB.length)) ∧
    (∀ l, addExecute exTasksAB "x" .medium [] none none none [1]
        ⟨2026, 1, 1⟩ 50 = .ok l →
      addValidateDeps (exTasksAB.length + 1) exTasksAB.length [1] =
        .ok ()) ∧
    (addValidateDeps (exTasksAB.length + 1) exTasksAB.length [1] =
        .ok () →
      addExecute exTasksAB "x" .medium [] none none none [1] ⟨2026, 1, 1⟩
        50 =
        .ok (exTasksAB ++
          [{ Task.new 50 "x" .medium
              (normalizeTags [] (collectExistingTags exTasksAB)).1 none
              none none ⟨2026, 1, 1⟩ with
            depends_on :=
              [1].map
                (fun d => (exTasksAB.getD (d - 1) defaultTask).uuid) }])) ∧
    ((Task.new 50 "x" .medium [] none none none
        ⟨2026, 1, 1⟩).depends_on = [] ∧
      ((∀ t ∈ exTasksAB, 50 ∉ t.depends_on) →
        ∀ u, u ≠ 50 → ¬ Reaches exTasksAB u 50))) :=
  ⟨by decide,
    dependency_edge_policy exTasksAB 1 (by decide) [2] (by decide) "x"
      .medium [] none none none [1] ⟨2026, 1, 1⟩ 50 (by decide) (by decide)
      (by decide) (by decide) (by decide)⟩

end Rustodo
